import Mathlib

/-!
# Verification of the symbol-ranking and repository-mapping pipeline

A shallow embedding of the core of the `github-code-research` repository:

* `parsers/pagerank.py` — `SymbolRanker`: dependency-graph construction,
  PageRank-with-boosts ranking, min-max normalization;
* `parsers/base.py` — the `Symbol` data model;
* `tools/repo_map.py` — `RepositoryMapper.generate_map`, `_format_map`, and
  the `get_repo_map_tool` argument validation.

Python strings are modelled as `List Char` (`PyStr`), with the string
operations the source uses (`split`, `strip`, `replace`, `startswith`,
`lower`, substring membership) implemented with Python semantics.
Python floats are modelled as rationals `ℚ`; Python dicts keyed by symbol
name are modelled as association lists `List (PyStr × ℚ)` in insertion
order.  The external PageRank routine (`networkx.pagerank`) and the
GitHub fetch/parse collaborators are modelled as oracle parameters of
type `Except`/`Option`, mirroring "returns a result or raises".
-/

namespace CodeResearch

/-- Python `str` modelled as a character list (Lean `String` does not
reduce in the kernel; `List Char` does). -/
abbrev PyStr := List Char

/-- Convert a Lean string literal into the `PyStr` model. -/
def pyStr (s : String) : PyStr := s.data

/-- Is `pre` a (list) prefix of `s`?  Used to find substring occurrences. -/
def listStartsWith : PyStr → PyStr → Bool
  | [], _ => true
  | _ :: _, [] => false
  | p :: ps, c :: cs => p = c && listStartsWith ps cs

/-- Python whitespace characters stripped by `str.strip()` (ASCII part). -/
def pyIsSpace (c : Char) : Bool :=
  c = ' ' || c = '\t' || c = '\n' || c = '\r' || c = Char.ofNat 11 || c = Char.ofNat 12

/-- Drop leading whitespace. -/
def trimLeftL : PyStr → PyStr
  | [] => []
  | c :: rest => if pyIsSpace c then trimLeftL rest else c :: rest

/-- Python `str.strip()`: drop leading and trailing whitespace. -/
def trimL (s : PyStr) : PyStr := ((trimLeftL ((trimLeftL s).reverse)).reverse)

/-- Fuel-driven worker for `splitOnL`; the fuel is an upper bound on the
number of characters still to consume, so it never runs out on the
initial fuel `s.length + 1`. -/
def splitAuxL (sep : PyStr) : Nat → PyStr → PyStr → List PyStr
  | _, [], acc => [acc.reverse]
  | 0, s, acc => [acc.reverse ++ s]
  | fuel + 1, c :: rest, acc =>
    if listStartsWith sep (c :: rest) then
      acc.reverse :: splitAuxL sep fuel (List.drop sep.length (c :: rest)) []
    else
      splitAuxL sep fuel rest (c :: acc)

/-- Python `s.split(sep)` for a non-empty separator: leftmost,
non-overlapping occurrences; `"".split(sep) = [""]`. -/
def splitOnL (s sep : PyStr) : List PyStr :=
  if sep.isEmpty then [s] else splitAuxL sep (s.length + 1) s []

/-- Python `s.split(sep, 1)`: at most one split, keeping the remainder
(with any later separator occurrences) as the second piece. -/
def splitOnceL (s sep : PyStr) : List PyStr :=
  match splitOnL s sep with
  | [] => []
  | [x] => [x]
  | x :: y :: rest => [x, rest.foldl (fun acc piece => acc ++ sep ++ piece) y]

/-- Python `sub in s` for a non-empty `sub`. -/
def strContainsL (s sub : PyStr) : Bool := 2 ≤ (splitOnL s sub).length

/-- Fuel-driven worker for `replaceL`. -/
def replaceAuxL (pat repl : PyStr) : Nat → PyStr → PyStr
  | _, [] => []
  | 0, s => s
  | fuel + 1, c :: rest =>
    if listStartsWith pat (c :: rest) then
      repl ++ replaceAuxL pat repl fuel (List.drop pat.length (c :: rest))
    else
      c :: replaceAuxL pat repl fuel rest

/-- Python `s.replace(pat, repl)` for non-empty `pat`: replaces every
leftmost non-overlapping occurrence. -/
def replaceL (s pat repl : PyStr) : PyStr :=
  if pat.isEmpty then s else replaceAuxL pat repl (s.length + 1) s

/-- Python `str.lower()` restricted to ASCII letters, as `Char.toLower`. -/
def lowerL (s : PyStr) : PyStr := s.map Char.toLower

/-- `call.split(".")[-1]` — the last dotted component (`pagerank.py:106-107`;
the `if call_parts else call` fallback is dead code since Python `split`
never returns an empty list, mirrored by `getLastD`). -/
def lastDotted (s : PyStr) : PyStr := (splitOnL s (pyStr ".")).getLastD s

/-- `name.split(".")[0]` — the component before the first dot
(`pagerank.py:150`). -/
def firstDotted (s : PyStr) : PyStr := (splitOnL s (pyStr ".")).headD s

/-- The `Symbol` dataclass of `parsers/base.py` (the contained
tree-sitter node is irrelevant to ranking and not modelled). -/
structure Symbol where
  name : PyStr
  type : PyStr
  signature : PyStr
  start_line : Nat
  end_line : Nat
  is_exported : Bool := false
  is_public : Bool := true
  file_path : Option PyStr := none
deriving DecidableEq

/-- The `ParseResult` dataclass of `parsers/base.py` (without the
optional tree handle, which ranking never reads). -/
structure ParseResult where
  symbols : List Symbol
  imports : List PyStr
  calls : List PyStr
deriving DecidableEq

/-- `imp.strip().split(" as ")[0].strip()` (`pagerank.py:174`): one
item of a `from ... import ...` list. -/
def fromItemName (imp : PyStr) : PyStr :=
  trimL ((splitOnL (trimL imp) (pyStr " as ")).headD [])

/-- One item of an `import ...` list (`pagerank.py:180-183`): the
`from`-item rule, then keep only the last dotted segment. -/
def importItemName (part : PyStr) : PyStr :=
  let name := trimL ((splitOnL (trimL part) (pyStr " as ")).headD [])
  if name.contains '.' then lastDotted name else name

/-- `SymbolRanker._extract_imported_names` (`pagerank.py:162-186`):
extract bound identifier names from one raw import-statement string,
accumulating `names.append(...)` over the items. -/
def extractImportedNames (stmt : PyStr) : List PyStr :=
  if listStartsWith (pyStr "from") stmt then
    -- from module import name1, name2 [as alias]
    if strContainsL stmt (pyStr " import ") then
      match splitOnceL stmt (pyStr " import ") with
      | [_, itemsText] =>
        (splitOnL itemsText (pyStr ",")).foldl (fun names imp => names ++ [fromItemName imp]) []
      | _ => []
    else []
  else if listStartsWith (pyStr "import") stmt then
    -- import module [as alias], module2 ...
    (splitOnL (replaceL stmt (pyStr "import ") []) (pyStr ",")).foldl
      (fun names part => names ++ [importItemName part]) []
  else []

/-- One directed edge of the dependency graph, with the `weight` and
`type` attributes the source passes to `networkx.add_edge`. -/
structure GEdge where
  src : PyStr
  tgt : PyStr
  weight : ℚ
  kind : PyStr
deriving DecidableEq

/-- A `networkx.DiGraph` restricted to what the source uses: an
insertion-ordered node list and at most one attributed edge per ordered
pair of nodes. -/
structure DiGraph where
  nodes : List PyStr
  edges : List GEdge
deriving DecidableEq

/-- `graph.add_node(n)`: a no-op when the node exists. -/
def addNode (g : DiGraph) (n : PyStr) : DiGraph :=
  if g.nodes.contains n then g else { g with nodes := g.nodes ++ [n] }

/-- `graph.has_edge(s, t)`. -/
def hasEdge (g : DiGraph) (s t : PyStr) : Bool :=
  g.edges.any fun e => decide (e.src = s ∧ e.tgt = t)

/-- `graph.add_edge(s, t, weight=w, type=k)`: inserts missing endpoint
nodes, and overwrites the attributes when the edge already exists. -/
def addEdge (g : DiGraph) (s t : PyStr) (w : ℚ) (k : PyStr) : DiGraph :=
  let g1 := addNode (addNode g s) t
  if hasEdge g1 s t then
    { g1 with
      edges := g1.edges.map fun e =>
        if e.src = s ∧ e.tgt = t then { src := s, tgt := t, weight := w, kind := k } else e }
  else
    { g1 with edges := g1.edges ++ [{ src := s, tgt := t, weight := w, kind := k }] }

/-- `pagerank.py:100-101`: every symbol name becomes a node. -/
def nodesGraph (symbols : List Symbol) : DiGraph :=
  symbols.foldl (fun g s => addNode g s.name) { nodes := [], edges := [] }

/-- `pagerank.py:114-124`: for a matched callee, add a `call` edge of
weight 2.0 from every other-named symbol, unless the edge exists. -/
def callEdgeInner (pool : List Symbol) (callee : Symbol) (g : DiGraph) : DiGraph :=
  pool.foldl
    (fun g other =>
      if other.name ≠ callee.name then
        if hasEdge g other.name callee.name then g
        else addEdge g other.name callee.name 2 (pyStr "call")
      else g)
    g

/-- `pagerank.py:104-124`: process one raw call expression. -/
def callEdgesForCall (symbols : List Symbol) (g : DiGraph) (call : PyStr) : DiGraph :=
  symbols.foldl
    (fun g sym => if sym.name = lastDotted call then callEdgeInner symbols sym g else g)
    g

/-- The call-edge stage of `_build_dependency_graph` (`pagerank.py:103-124`). -/
def addCallEdges (g : DiGraph) (symbols : List Symbol) (calls : List PyStr) : DiGraph :=
  calls.foldl (callEdgesForCall symbols) g

/-- `pagerank.py:131-141`: a weight-1.0 `import` self-loop on every
symbol matching an imported name. -/
def importEdgesForName (symbols : List Symbol) (g : DiGraph) (importedName : PyStr) : DiGraph :=
  symbols.foldl
    (fun g sym =>
      if sym.name = importedName then addEdge g sym.name sym.name 1 (pyStr "import") else g)
    g

/-- The import-edge stage of `_build_dependency_graph` (`pagerank.py:126-141`). -/
def addImportEdges (g : DiGraph) (symbols : List Symbol) (imports : List PyStr) : DiGraph :=
  imports.foldl
    (fun g stmt => (extractImportedNames stmt).foldl (importEdgesForName symbols) g)
    g

/-- One step of the containment stage: `pagerank.py:147-158`. -/
def containStep (classSymbols : List Symbol) (g : DiGraph) (m : Symbol) : DiGraph :=
  if m.name.contains '.' then
    if classSymbols.any (fun c => decide (c.name = firstDotted m.name)) then
      addEdge g m.name (firstDotted m.name) 3 (pyStr "inheritance")
    else g
  else g

/-- The containment stage of `_build_dependency_graph`
(`pagerank.py:143-158`): a weight-3.0 edge, `type="inheritance"` in the
source (the spec calls this edge kind `contains`), from each
dot-qualified method to its class. -/
def addContainmentEdges (g : DiGraph) (symbols : List Symbol) : DiGraph :=
  (symbols.filter fun s => decide (s.type = pyStr "method")).foldl
    (containStep (symbols.filter fun s => decide (s.type = pyStr "class")))
    g

/-- `SymbolRanker._build_dependency_graph` (`pagerank.py:83-160`). -/
def buildDependencyGraph (symbols : List Symbol) (imports calls : List PyStr) : DiGraph :=
  addContainmentEdges
    (addImportEdges (addCallEdges (nodesGraph symbols) symbols calls) symbols imports)
    symbols

/-! ## Scores: boosts and normalization -/

/-- `SymbolRanker.EXPORTED_BOOST` (`pagerank.py:17`). -/
def EXPORTED_BOOST : ℚ := 3 / 2

/-- `SymbolRanker.ENTRY_POINT_BOOST` (`pagerank.py:18`). -/
def ENTRY_POINT_BOOST : ℚ := 2

/-- `SymbolRanker.CLASS_BOOST` (`pagerank.py:19`; the float 1.2 as a
rational). -/
def CLASS_BOOST : ℚ := 6 / 5

/-- `SymbolRanker.ENTRY_POINTS` (`pagerank.py:22-26`). -/
def ENTRY_POINTS : List PyStr :=
  [pyStr "main", pyStr "__main__", pyStr "init", pyStr "__init__",
   pyStr "setup", pyStr "start", pyStr "run", pyStr "execute",
   pyStr "index", pyStr "default", pyStr "app"]

/-- Dict lookup `d[k]` / `k in d` on an insertion-ordered score dict. -/
def lookupScore (d : List (PyStr × ℚ)) (k : PyStr) : Option ℚ :=
  (d.find? fun p => decide (p.1 = k)).map (·.2)

/-- Dict update `d[k] = v` for a key already present. -/
def updateScore (d : List (PyStr × ℚ)) (k : PyStr) (v : ℚ) : List (PyStr × ℚ) :=
  d.map fun p => if p.1 = k then (k, v) else p

/-- The boost cascade applied to one symbol's current score
(`pagerank.py:196-210`). -/
def boostSymbol (s : Symbol) (v : ℚ) : ℚ :=
  let v1 := if s.is_exported then v * EXPORTED_BOOST else v
  let v2 := if ENTRY_POINTS.contains (lowerL s.name) then v1 * ENTRY_POINT_BOOST else v1
  if s.type = pyStr "class" then v2 * CLASS_BOOST else v2

/-- `SymbolRanker._apply_boosts` (`pagerank.py:188-212`): iterate over
the symbol list, re-reading and updating the shared per-name entry. -/
def applyBoosts (symbols : List Symbol) (scores : List (PyStr × ℚ)) : List (PyStr × ℚ) :=
  symbols.foldl
    (fun d s =>
      match lookupScore d s.name with
      | none => d
      | some v => updateScore d s.name (boostSymbol s v))
    scores

/-- The combined multiplicative factor one symbol occurrence contributes
(×1.5 exported, ×2.0 entry-point name, ×1.2 class, compounding
independently). -/
def boostFactor (s : Symbol) : ℚ :=
  (if s.is_exported then EXPORTED_BOOST else 1) *
    (if ENTRY_POINTS.contains (lowerL s.name) then ENTRY_POINT_BOOST else 1) *
    (if s.type = pyStr "class" then CLASS_BOOST else 1)

/-- Python `min(values)` over a Python-nonempty iterable (a junk value on
`[]`, which the source never reaches). -/
def listMinQ : List ℚ → ℚ
  | [] => 0
  | x :: rest => rest.foldl min x

/-- Python `max(values)`, as `listMinQ`. -/
def listMaxQ : List ℚ → ℚ
  | [] => 0
  | x :: rest => rest.foldl max x

/-- `SymbolRanker._normalize_scores` (`pagerank.py:214-230`). -/
def normalizeScores (scores : List (PyStr × ℚ)) : List (PyStr × ℚ) :=
  if scores.isEmpty then []
  else
    let mn := listMinQ (scores.map (·.2))
    let mx := listMaxQ (scores.map (·.2))
    if mx = mn then scores.map fun p => (p.1, 1)
    else scores.map fun p => (p.1, (p.2 - mn) / (mx - mn))

/-- Key list of `{s.name: 1.0 for s in symbols}`: first occurrence of
each name, in order. -/
def firstKeys (names : List PyStr) : List PyStr :=
  names.foldl (fun acc n => if acc.contains n then acc else acc ++ [n]) []

/-- `{s.name: 1.0 for s in symbols}` (`pagerank.py:71`). -/
def uniformScores (symbols : List Symbol) : List (PyStr × ℚ) :=
  (firstKeys (symbols.map Symbol.name)).map fun n => (n, 1)

/-- The `try/except` around `nx.pagerank` (`pagerank.py:63-71`): the
external centrality routine is an oracle `pr`; any raised error is
replaced by the uniform score dict. -/
def pagerankOrFallback (pr : DiGraph → Except PyStr (List (PyStr × ℚ)))
    (g : DiGraph) (symbols : List Symbol) : List (PyStr × ℚ) :=
  match pr g with
  | .ok s => s
  | .error _ => uniformScores symbols

/-- The boosted (pre-normalization) score dict of `rank_symbols`
(`pagerank.py:60-74`). -/
def boostedScoresOf (pr : DiGraph → Except PyStr (List (PyStr × ℚ)))
    (symbols : List Symbol) (imports calls : List PyStr) : List (PyStr × ℚ) :=
  applyBoosts symbols
    (pagerankOrFallback pr (buildDependencyGraph symbols imports calls) symbols)

/-- `SymbolRanker.rank_symbols` (`pagerank.py:39-81`), with the external
PageRank routine as the oracle `pr`. -/
def rank_symbols (pr : DiGraph → Except PyStr (List (PyStr × ℚ)))
    (symbols : List Symbol) (imports calls : List PyStr) : List (PyStr × ℚ) :=
  if symbols.isEmpty then []
  else normalizeScores (boostedScoresOf pr symbols imports calls)

/-! ## Repository map assembly (`tools/repo_map.py`) -/

/-- `scores.get(name, 0.0)` (`repo_map.py:142,197`). -/
def getScore (scores : List (PyStr × ℚ)) (n : PyStr) : ℚ :=
  (lookupScore scores n).getD 0

/-- The descending-by-score order `sorted(..., key=..., reverse=True)`
uses on symbols (`repo_map.py:140-144`); non-strict so that the stable
insertion sort models Python's stable sort. -/
abbrev symbolDesc (scores : List (PyStr × ℚ)) (a b : Symbol) : Prop :=
  getScore scores b.name ≤ getScore scores a.name

instance (scores : List (PyStr × ℚ)) : IsTotal Symbol (symbolDesc scores) :=
  ⟨fun _ _ => le_total _ _⟩

instance (scores : List (PyStr × ℚ)) : IsTrans Symbol (symbolDesc scores) :=
  ⟨fun _ _ _ h1 h2 => le_trans h2 h1⟩

/-- `ranked_symbols = sorted(all_symbols, key=..., reverse=True)`
(`repo_map.py:140-144`), modelled by the stable insertion sort. -/
def rankedSymbols (all : List Symbol) (scores : List (PyStr × ℚ)) : List Symbol :=
  List.insertionSort (symbolDesc scores) all

/-- `top_symbols = ranked_symbols[:max_symbols]` (`repo_map.py:147`);
`max_symbols` is a `Nat` because the tool interface validates it to an
integer ≥ 1 before `generate_map` runs (`repo_map.py:257-263`). -/
def topSymbols (all : List Symbol) (scores : List (PyStr × ℚ)) (maxSymbols : Nat) :
    List Symbol :=
  (rankedSymbols all scores).take maxSymbols

/-- `by_file[symbol.file_path].append((symbol, score))` on a
`defaultdict(list)` (`repo_map.py:195-197`): group into an
insertion-ordered association list. -/
def groupInsert (acc : List (Option PyStr × List (Symbol × ℚ))) (p : Symbol × ℚ) :
    List (Option PyStr × List (Symbol × ℚ)) :=
  if acc.any (fun e => decide (e.1 = p.1.file_path)) then
    acc.map fun e => if e.1 = p.1.file_path then (e.1, e.2 ++ [p]) else e
  else acc ++ [(p.1.file_path, [p])]

/-- The grouping loop of `_format_map` (`repo_map.py:195-197`). -/
def groupByFile (symbols : List Symbol) (scores : List (PyStr × ℚ)) :
    List (Option PyStr × List (Symbol × ℚ)) :=
  (symbols.map fun s => (s, getScore scores s.name)).foldl groupInsert []

/-- `max(score for _, score in x[1])` (`repo_map.py:202`). -/
def maxEntryScore (e : Option PyStr × List (Symbol × ℚ)) : ℚ :=
  listMaxQ (e.2.map (·.2))

/-- The descending-by-max-score order on file groups (`repo_map.py:200-204`). -/
abbrev fileDesc (a b : Option PyStr × List (Symbol × ℚ)) : Prop :=
  maxEntryScore b ≤ maxEntryScore a

instance : IsTotal (Option PyStr × List (Symbol × ℚ)) fileDesc :=
  ⟨fun _ _ => le_total _ _⟩

instance : IsTrans (Option PyStr × List (Symbol × ℚ)) fileDesc :=
  ⟨fun _ _ _ h1 h2 => le_trans h2 h1⟩

/-- The descending-by-score order on `(symbol, score)` pairs within one
file (`repo_map.py:214`). -/
abbrev pairDesc (p q : Symbol × ℚ) : Prop := q.2 ≤ p.2

instance : IsTotal (Symbol × ℚ) pairDesc := ⟨fun _ _ => le_total _ _⟩

instance : IsTrans (Symbol × ℚ) pairDesc := ⟨fun _ _ _ h1 h2 => le_trans h2 h1⟩

/-- `sorted(file_symbols, key=lambda x: x[1], reverse=True)`
(`repo_map.py:214`). -/
def sortWithinFile (e : Option PyStr × List (Symbol × ℚ)) :
    Option PyStr × List (Symbol × ℚ) :=
  (e.1, List.insertionSort pairDesc e.2)

/-- The structural content of `RepositoryMapper._format_map`
(`repo_map.py:192-220`): file groups ordered by maximum displayed score,
each group's symbols ordered by score; the surrounding text rendering
(header and `"  [score] signature"` lines) consumes this list in order
and is presentation only. -/
def formatMapStruct (symbols : List Symbol) (scores : List (PyStr × ℚ)) :
    List (Option PyStr × List (Symbol × ℚ)) :=
  (List.insertionSort fileDesc (groupByFile symbols scores)).map sortWithinFile

/-! ## The per-file parse loop of `generate_map` (`repo_map.py:93-124`) -/

/-- `symbol.file_path = file_path` (`repo_map.py:115`). -/
def setFilePath (fp : PyStr) (s : Symbol) : Symbol := { s with file_path := some fp }

/-- One iteration of the file loop.  The oracle `fetchParse` combines
`get_file_content`, `ParserFactory.get_parser` and `parser.parse`:
`.error` models a raised exception (caught at `repo_map.py:122`),
`.ok none` models "no parser for this extension" (`repo_map.py:107-108`),
`.ok (some r)` a successful parse.  Failing files leave the accumulators
untouched. -/
def parseStep (fetchParse : PyStr → Except PyStr (Option ParseResult))
    (acc : List Symbol × List PyStr × List PyStr) (fp : PyStr) :
    List Symbol × List PyStr × List PyStr :=
  match fetchParse fp with
  | .ok (some r) =>
      (acc.1 ++ r.symbols.map (setFilePath fp), acc.2.1 ++ r.imports, acc.2.2 ++ r.calls)
  | _ => acc

/-- The whole accumulation loop `for file_info in code_files: ...`
(`repo_map.py:94-124`), producing `(all_symbols, all_imports, all_calls)`. -/
def accumulateParses (fetchParse : PyStr → Except PyStr (Option ParseResult))
    (paths : List PyStr) : List Symbol × List PyStr × List PyStr :=
  paths.foldl (parseStep fetchParse) ([], [], [])

/-- The symbols one file contributes to the accumulation. -/
def fileSymbols (fetchParse : PyStr → Except PyStr (Option ParseResult)) (fp : PyStr) :
    List Symbol :=
  match fetchParse fp with
  | .ok (some r) => r.symbols.map (setFilePath fp)
  | _ => []

/-- The imports one file contributes. -/
def fileImports (fetchParse : PyStr → Except PyStr (Option ParseResult)) (fp : PyStr) :
    List PyStr :=
  match fetchParse fp with
  | .ok (some r) => r.imports
  | _ => []

/-- The calls one file contributes. -/
def fileCalls (fetchParse : PyStr → Except PyStr (Option ParseResult)) (fp : PyStr) :
    List PyStr :=
  match fetchParse fp with
  | .ok (some r) => r.calls
  | _ => []

/-- Does this file contribute anything (fetched, parser found, parsed)? -/
def fileContributes (fetchParse : PyStr → Except PyStr (Option ParseResult))
    (fp : PyStr) : Bool :=
  match fetchParse fp with
  | .ok (some _) => true
  | _ => false

/-! ## Tool argument validation (`repo_map.py:241-266`) -/

/-- The JSON-ish argument values `get_repo_map_tool` can receive for
`max_symbols`: an integer, a string, or `null` (floats, which `int()`
truncates, do not occur over the JSON tool interface for this argument
and are not modelled). -/
inductive PyVal where
  | int (n : Int)
  | str (s : PyStr)
  | noneV
deriving DecidableEq

/-- Value of a non-empty digit list. -/
def digitsValNat (l : List Char) : Nat :=
  l.foldl (fun n c => n * 10 + (c.toNat - 48)) 0

/-- Continuation of `pyDigits`: digits with single underscores allowed
between them (Python integer-literal grouping). -/
def pyDigitsRest : List Char → Bool
  | [] => true
  | '_' :: c :: rest => c.isDigit && pyDigitsRest rest
  | ['_'] => false
  | c :: rest => c.isDigit && pyDigitsRest rest

/-- A valid Python decimal digit run: non-empty, underscores only
between digits. -/
def pyDigits : List Char → Bool
  | [] => false
  | c :: rest => c.isDigit && pyDigitsRest rest

/-- Python `int(string)`: strip whitespace, optional sign, decimal
digits with optional grouping underscores; anything else raises
`ValueError` (`none` here). -/
def parseIntStr (s : PyStr) : Option Int :=
  match trimL s with
  | [] => none
  | c :: rest =>
    let core := if c = '-' ∨ c = '+' then rest else c :: rest
    let sign : Int := if c = '-' then -1 else 1
    if pyDigits core then
      some (sign * (digitsValNat (core.filter fun c => decide (c ≠ '_')) : Int))
    else none

/-- Python `int(x)` on the modelled values: identity on integers,
string parsing on strings, `TypeError` (`none`) on `None`. -/
def pyToInt : PyVal → Option Int
  | .int n => some n
  | .str s => parseIntStr s
  | .noneV => none

/-- The `max_symbols` validation of `get_repo_map_tool`
(`repo_map.py:244,257-263`): default 50 when missing, `int(...)` with
both conversion failure and values below 1 silently replaced by 50. -/
def validateMaxSymbols (arg : Option PyVal) : Int :=
  match arg with
  | none => 50
  | some v =>
    match pyToInt v with
    | none => 50
    | some n => if n < 1 then 50 else n

/-- The outcome of the argument-handling prefix of `get_repo_map_tool`
(`repo_map.py:242-263`): an error response exactly when `owner` or
`repo` is missing or empty (Python falsy), otherwise the validated
`max_symbols` handed to `generate_map`.  (The source's error text is
"Error: 'owner' and 'repo' are required parameters".) -/
def toolMaxSymbols (owner repo : Option PyStr) (maxSymbolsArg : Option PyVal) :
    Except PyStr Int :=
  if owner.getD [] = [] ∨ repo.getD [] = [] then
    .error (pyStr "missing owner or repo")
  else
    .ok (validateMaxSymbols maxSymbolsArg)

/-! ## The spec's recognized import-statement forms

Used to compare `_extract_imported_names` against the specification's
description of it ("two textual forms only ... any other import text
form yields no extracted names"). -/

/-- Modelled from the spec: a statement of the textual form
`from <module> import <n1>, <n2> [as alias], ...` — it starts with the
word `from` and contains the ` import ` separator. -/
def specFromForm (stmt : PyStr) : Bool :=
  listStartsWith (pyStr "from ") stmt && strContainsL stmt (pyStr " import ")

/-- Modelled from the spec: a statement of the textual form
`import <m1> [as a1], <m2> [as a2], ...` — it starts with the word
`import` followed by a space. -/
def specImportForm (stmt : PyStr) : Bool :=
  listStartsWith (pyStr "import ") stmt

/-- Modelled from the spec (amended to the code's prefix dispatch): text
starting with `from` and containing ` import ` yields the per-item names
of the comma-split text after the first ` import `; other text starting
with `import` yields the per-item names, last-dotted-segment rule
included, of the comma-split text with every `import ` occurrence
removed; all remaining text yields no names. -/
def specExtractNames (stmt : PyStr) : List PyStr :=
  if listStartsWith (pyStr "from") stmt then
    if strContainsL stmt (pyStr " import ") then
      match splitOnceL stmt (pyStr " import ") with
      | [_, itemsText] => (splitOnL itemsText (pyStr ",")).map fromItemName
      | _ => []
    else []
  else if listStartsWith (pyStr "import") stmt then
    (splitOnL (replaceL stmt (pyStr "import ") []) (pyStr ",")).map importItemName
  else []

/-! ## Concrete data for witnesses and counterexamples -/

/-- Build a symbol with the ranking-relevant fields. -/
def mkSym (n t : String) (exported : Bool) : Symbol :=
  { name := pyStr n, type := pyStr t, signature := pyStr n,
    start_line := 1, end_line := 1, is_exported := exported,
    is_public := true, file_path := none }

/-- Build a symbol attributed to a file. -/
def mkSymIn (n t fp : String) : Symbol :=
  { name := pyStr n, type := pyStr t, signature := pyStr n,
    start_line := 1, end_line := 1, is_exported := false,
    is_public := true, file_path := some (pyStr fp) }

/-- An always-failing centrality oracle. -/
def errOracle : DiGraph → Except PyStr (List (PyStr × ℚ)) :=
  fun _ => .error (pyStr "power iteration failed to converge")

/-- A fetch/parse oracle that fails on the file `bad` and parses every
other file into one symbol, one import and one call. -/
def exFetchParse : PyStr → Except PyStr (Option ParseResult) :=
  fun fp =>
    if fp = pyStr "bad" then .error (pyStr "parse error")
    else .ok (some { symbols := [mkSym "s" "function" false],
                     imports := [pyStr "import os"], calls := [pyStr "f"] })

/-- The assembly-ordering example scores: `{f1: 0.9, f2: 0.9, g1: 0.3}`. -/
def exMapScores : List (PyStr × ℚ) :=
  [(pyStr "f1", 9 / 10), (pyStr "f2", 9 / 10), (pyStr "g1", 3 / 10)]

/-! # Theorems

First a layer of generic lemmas about the folds, the graph operations
and the score dictionaries; then one theorem (plus witness or
counterexample) per specification claim. -/

example : extractImportedNames (pyStr "from m import a, b as c") = [pyStr "a", pyStr "b"] := by
  decide

example : extractImportedNames (pyStr "import x.y as z, w") = [pyStr "y", pyStr "w"] := by
  decide

example : splitOnceL (pyStr "from m import a import b") (pyStr " import ")
    = [pyStr "from m", pyStr "a import b"] := by decide

example : extractImportedNames (pyStr "from m import a import b") = [pyStr "a import b"] := by
  decide

theorem foldl_preserve_mem {α β : Type*} (step : β → α → β) (P : β → Prop)
    (l : List α) (hstep : ∀ b, ∀ a ∈ l, P b → P (step b a)) (b : β) (hb : P b) :
    P (l.foldl step b) := by
  induction l generalizing b with
  | nil => exact hb
  | cons a l ih =>
    exact ih (fun b x hx hPb => hstep b x (List.mem_cons_of_mem _ hx) hPb) _
      (hstep b a (List.mem_cons_self _ _) hb)

theorem foldl_reach_mem {α β : Type*} (step : β → α → β) (P : β → Prop)
    (l : List α) (hstep : ∀ b, ∀ a ∈ l, P b → P (step b a))
    (x : α) (hx : x ∈ l) (hest : ∀ b, P (step b x)) (b : β) :
    P (l.foldl step b) := by
  induction l generalizing b with
  | nil => cases hx
  | cons a l ih =>
    rcases List.mem_cons.mp hx with h | h
    · subst h
      exact foldl_preserve_mem step P l
        (fun b y hy => hstep b y (List.mem_cons_of_mem _ hy)) _ (hest b)
    · exact ih (fun b y hy => hstep b y (List.mem_cons_of_mem _ hy)) h (step b a)

theorem addNode_edges (g : DiGraph) (n : PyStr) : (addNode g n).edges = g.edges := by
  unfold addNode
  split <;> rfl

theorem hasEdge_iff (g : DiGraph) (s t : PyStr) :
    hasEdge g s t = true ↔ ∃ e ∈ g.edges, e.src = s ∧ e.tgt = t := by
  simp [hasEdge, List.any_eq_true]

theorem hasEdge_addNode (g : DiGraph) (n s t : PyStr) :
    hasEdge (addNode g n) s t = hasEdge g s t := by
  simp [hasEdge, addNode_edges]

theorem addEdge_edges_of_hasEdge (g : DiGraph) (s t : PyStr) (w : ℚ) (k : PyStr)
    (h : hasEdge g s t = true) :
    (addEdge g s t w k).edges =
      g.edges.map fun e =>
        if e.src = s ∧ e.tgt = t then { src := s, tgt := t, weight := w, kind := k } else e := by
  unfold addEdge
  simp [addNode_edges, hasEdge_addNode, h]

theorem addEdge_edges_of_not_hasEdge (g : DiGraph) (s t : PyStr) (w : ℚ) (k : PyStr)
    (h : hasEdge g s t = false) :
    (addEdge g s t w k).edges = g.edges ++ [{ src := s, tgt := t, weight := w, kind := k }] := by
  unfold addEdge
  simp [addNode_edges, hasEdge_addNode, h]

/-- `add_edge` always leaves behind an edge with exactly the attributes
just written. -/
theorem addEdge_mem_new (g : DiGraph) (s t : PyStr) (w : ℚ) (k : PyStr) :
    ({ src := s, tgt := t, weight := w, kind := k } : GEdge) ∈ (addEdge g s t w k).edges := by
  by_cases h : hasEdge g s t
  · rw [addEdge_edges_of_hasEdge g s t w k h]
    rcases (hasEdge_iff g s t).mp h with ⟨e, he, hsrc, htgt⟩
    exact List.mem_map.mpr ⟨e, he, by simp [hsrc, htgt]⟩
  · rw [addEdge_edges_of_not_hasEdge g s t w k (by simpa using h)]
    simp

/-- `add_edge` never removes an ordered pair from the edge set. -/
theorem addEdge_key_mem (g : DiGraph) (s t : PyStr) (w : ℚ) (k : PyStr) (a b : PyStr)
    (h : ∃ e ∈ g.edges, e.src = a ∧ e.tgt = b) :
    ∃ e ∈ (addEdge g s t w k).edges, e.src = a ∧ e.tgt = b := by
  rcases h with ⟨e, he, hsrc, htgt⟩
  by_cases hh : hasEdge g s t
  · rw [addEdge_edges_of_hasEdge g s t w k hh]
    by_cases hmatch : e.src = s ∧ e.tgt = t
    · refine ⟨{ src := s, tgt := t, weight := w, kind := k }, List.mem_map.mpr ⟨e, he, by simp [hmatch]⟩, ?_, ?_⟩
      · simp [← hmatch.1, hsrc]
      · simp [← hmatch.2, htgt]
    · exact ⟨e, List.mem_map.mpr ⟨e, he, by simp [hmatch]⟩, hsrc, htgt⟩
  · rw [addEdge_edges_of_not_hasEdge g s t w k (by simpa using hh)]
    exact ⟨e, List.mem_append_left _ he, hsrc, htgt⟩

/-- `add_edge` keeps the ordered pairs of the edge list duplicate-free. -/
theorem addEdge_keys_nodup (g : DiGraph) (s t : PyStr) (w : ℚ) (k : PyStr)
    (h : (g.edges.map fun e => (e.src, e.tgt)).Nodup) :
    ((addEdge g s t w k).edges.map fun e => (e.src, e.tgt)).Nodup := by
  by_cases hh : hasEdge g s t
  · rw [addEdge_edges_of_hasEdge g s t w k hh]
    have hmap : ((g.edges.map fun e =>
        if e.src = s ∧ e.tgt = t then ({ src := s, tgt := t, weight := w, kind := k } : GEdge) else e).map
          fun e => (e.src, e.tgt)) = g.edges.map fun e => (e.src, e.tgt) := by
      rw [List.map_map]
      refine List.map_congr_left fun e _ => ?_
      by_cases hmatch : e.src = s ∧ e.tgt = t
      · simp [hmatch, Function.comp, hmatch.1, hmatch.2]
      · simp [hmatch, Function.comp]
    rw [hmap]
    exact h
  · rw [addEdge_edges_of_not_hasEdge g s t w k (by simpa using hh)]
    rw [List.map_append]
    refine List.Nodup.append h (by simp) ?_
    intro p hp hq
    simp only [List.map_cons, List.map_nil, List.mem_singleton] at hq
    subst hq
    rcases List.mem_map.mp hp with ⟨e, he, hkey⟩
    have hse : e.src = s := congrArg Prod.fst hkey
    have hte : e.tgt = t := congrArg Prod.snd hkey
    exact absurd ((hasEdge_iff g s t).mpr ⟨e, he, hse, hte⟩) (by simpa using hh)

theorem lookup_updateScore_self (d : List (PyStr × ℚ)) (k : PyStr) (v : ℚ) :
    lookupScore (updateScore d k v) k = (lookupScore d k).map fun _ => v := by
  induction d with
  | nil => rfl
  | cons p d ih =>
    by_cases h : p.1 = k
    · simp [lookupScore, updateScore, List.find?, h]
    · simpa [lookupScore, updateScore, List.find?, h] using ih

theorem lookup_updateScore_other (d : List (PyStr × ℚ)) (k k' : PyStr) (v : ℚ)
    (h : k' ≠ k) :
    lookupScore (updateScore d k' v) k = lookupScore d k := by
  induction d with
  | nil => rfl
  | cons p d ih =>
    simp only [updateScore, List.map_cons]
    by_cases hp : p.1 = k'
    · have hpk : p.1 ≠ k := by rw [hp]; exact h
      rw [if_pos hp]
      simp only [lookupScore, List.find?]
      rw [show (decide (((k', v) : PyStr × ℚ).1 = k)) = false from by simpa using h,
        show (decide (p.1 = k)) = false from by simpa using hpk]
      exact ih
    · rw [if_neg hp]
      by_cases hk : p.1 = k
      · simp only [lookupScore, List.find?]
        rw [show (decide (p.1 = k)) = true from by simpa using hk]
      · simp only [lookupScore, List.find?]
        rw [show (decide (p.1 = k)) = false from by simpa using hk]
        exact ih

theorem updateScore_keys (d : List (PyStr × ℚ)) (k : PyStr) (v : ℚ) :
    (updateScore d k v).map Prod.fst = d.map Prod.fst := by
  induction d with
  | nil => rfl
  | cons p d ih =>
    by_cases h : p.1 = k <;> simp [updateScore, h] <;>
      simpa [updateScore] using ih

theorem applyBoosts_keys (symbols : List Symbol) (scores : List (PyStr × ℚ)) :
    (applyBoosts symbols scores).map Prod.fst = scores.map Prod.fst := by
  unfold applyBoosts
  refine foldl_preserve_mem _ (fun d => d.map Prod.fst = scores.map Prod.fst) symbols
    (fun d s _ hd => ?_) scores rfl
  cases h : lookupScore d s.name with
  | none => simpa [h] using hd
  | some v => simp [h, updateScore_keys, hd]

theorem foldl_min_le_init (l : List ℚ) (a : ℚ) : l.foldl min a ≤ a := by
  induction l generalizing a with
  | nil => exact le_refl a
  | cons x l ih => exact le_trans (ih (min a x)) (min_le_left a x)

theorem foldl_min_le_mem (l : List ℚ) (a x : ℚ) (hx : x ∈ l) : l.foldl min a ≤ x := by
  induction l generalizing a with
  | nil => cases hx
  | cons y l ih =>
    rcases List.mem_cons.mp hx with h | h
    · subst h
      exact le_trans (foldl_min_le_init l (min a x)) (min_le_right a x)
    · exact ih _ h

theorem foldl_min_mem_or (l : List ℚ) (a : ℚ) : l.foldl min a = a ∨ l.foldl min a ∈ l := by
  induction l generalizing a with
  | nil => exact Or.inl rfl
  | cons x l ih =>
    rcases ih (min a x) with h | h
    · rcases min_choice a x with hm | hm
      · exact Or.inl (by rw [List.foldl_cons, h, hm])
      · exact Or.inr (by rw [List.foldl_cons, h, hm]; exact List.mem_cons_self _ _)
    · exact Or.inr (List.mem_cons_of_mem _ h)

theorem le_foldl_max_init (l : List ℚ) (a : ℚ) : a ≤ l.foldl max a := by
  induction l generalizing a with
  | nil => exact le_refl a
  | cons x l ih => exact le_trans (le_max_left a x) (ih (max a x))

theorem le_foldl_max_mem (l : List ℚ) (a x : ℚ) (hx : x ∈ l) : x ≤ l.foldl max a := by
  induction l generalizing a with
  | nil => cases hx
  | cons y l ih =>
    rcases List.mem_cons.mp hx with h | h
    · subst h
      exact le_trans (le_max_right a x) (le_foldl_max_init l (max a x))
    · exact ih _ h

theorem foldl_max_mem_or (l : List ℚ) (a : ℚ) : l.foldl max a = a ∨ l.foldl max a ∈ l := by
  induction l generalizing a with
  | nil => exact Or.inl rfl
  | cons x l ih =>
    rcases ih (max a x) with h | h
    · rcases max_choice a x with hm | hm
      · exact Or.inl (by rw [List.foldl_cons, h, hm])
      · exact Or.inr (by rw [List.foldl_cons, h, hm]; exact List.mem_cons_self _ _)
    · exact Or.inr (List.mem_cons_of_mem _ h)

theorem listMinQ_le (l : List ℚ) (x : ℚ) (hx : x ∈ l) : listMinQ l ≤ x := by
  cases l with
  | nil => cases hx
  | cons y l =>
    rcases List.mem_cons.mp hx with h | h
    · subst h
      exact foldl_min_le_init l x
    · exact foldl_min_le_mem l y x h

theorem le_listMaxQ (l : List ℚ) (x : ℚ) (hx : x ∈ l) : x ≤ listMaxQ l := by
  cases l with
  | nil => cases hx
  | cons y l =>
    rcases List.mem_cons.mp hx with h | h
    · subst h
      exact le_foldl_max_init l x
    · exact le_foldl_max_mem l y x h

theorem listMinQ_mem (l : List ℚ) (hl : l ≠ []) : listMinQ l ∈ l := by
  cases l with
  | nil => exact absurd rfl hl
  | cons y l =>
    rcases foldl_min_mem_or l y with h | h
    · rw [listMinQ, h]
      exact List.mem_cons_self _ _
    · exact List.mem_cons_of_mem _ (by rw [listMinQ]; exact h)

theorem listMaxQ_mem (l : List ℚ) (hl : l ≠ []) : listMaxQ l ∈ l := by
  cases l with
  | nil => exact absurd rfl hl
  | cons y l =>
    rcases foldl_max_mem_or l y with h | h
    · rw [listMaxQ, h]
      exact List.mem_cons_self _ _
    · exact List.mem_cons_of_mem _ (by rw [listMaxQ]; exact h)

theorem listMaxQ_eq_of_perm (l l' : List ℚ) (h : List.Perm l l') :
    listMaxQ l = listMaxQ l' := by
  cases hl : l with
  | nil =>
    have hl' : l' = [] := by
      subst hl
      exact h.nil_eq.symm
    rw [hl']
  | cons y t =>
    subst hl
    have hne : (y :: t) ≠ ([] : List ℚ) := by simp
    have hne' : l' ≠ [] := by
      intro hm
      subst hm
      exact hne h.eq_nil
    refine le_antisymm ?_ ?_
    · exact le_listMaxQ l' _ (h.mem_iff.mp (listMaxQ_mem _ hne))
    · exact le_listMaxQ _ _ (h.mem_iff.mpr (listMaxQ_mem l' hne'))

/-! ## Claim C1 — boost application -/

theorem boostSymbol_eq_factor (s : Symbol) (v : ℚ) : boostSymbol s v = v * boostFactor s := by
  simp only [boostSymbol, boostFactor]
  split_ifs <;> ring

/-- Unrolling one step of the `_apply_boosts` fold. -/
theorem applyBoosts_cons (s : Symbol) (rest : List Symbol) (scores : List (PyStr × ℚ)) :
    applyBoosts (s :: rest) scores =
      applyBoosts rest
        (match lookupScore scores s.name with
         | none => scores
         | some v => updateScore scores s.name (boostSymbol s v)) := rfl

/-- `_apply_boosts` step on a symbol whose name is present. -/
theorem applyBoosts_cons_some (s : Symbol) (rest : List Symbol)
    (scores : List (PyStr × ℚ)) (v : ℚ) (h : lookupScore scores s.name = some v) :
    applyBoosts (s :: rest) scores
      = applyBoosts rest (updateScore scores s.name (boostSymbol s v)) := by
  rw [applyBoosts_cons, h]

/-- The per-name result of `_apply_boosts`: the raw score times the
product of the factors of every symbol occurrence with that name. -/
theorem applyBoosts_lookup (symbols : List Symbol) (scores : List (PyStr × ℚ)) (n : PyStr) :
    lookupScore (applyBoosts symbols scores) n
      = (lookupScore scores n).map fun v =>
          v * ((symbols.filter fun s => decide (s.name = n)).map boostFactor).prod := by
  induction symbols generalizing scores with
  | nil =>
    cases h : lookupScore scores n <;> simp [applyBoosts, h]
  | cons s rest ih =>
    rw [applyBoosts_cons, List.filter_cons]
    by_cases hn : s.name = n
    · subst hn
      rw [if_pos (by simp)]
      cases h : lookupScore scores s.name with
      | none =>
        rw [ih scores, h]
        simp
      | some v =>
        rw [ih, lookup_updateScore_self, h]
        simp [boostSymbol_eq_factor, mul_assoc]
    · rw [if_neg (by simpa using hn)]
      cases h : lookupScore scores s.name with
      | none =>
        exact ih scores
      | some v =>
        rw [ih, lookup_updateScore_other _ _ _ _ hn]

/-- Under pairwise-distinct names, the only occurrence is the symbol
itself. -/
theorem filter_name_eq_of_nodup (symbols : List Symbol) (s : Symbol)
    (hnd : (symbols.map Symbol.name).Nodup) (hs : s ∈ symbols) :
    (symbols.filter fun t => decide (t.name = s.name)) = [s] := by
  induction symbols with
  | nil => cases hs
  | cons a l ih =>
    rw [List.map_cons, List.nodup_cons] at hnd
    rcases List.mem_cons.mp hs with h | h
    · subst h
      rw [List.filter_cons, if_pos (by simp)]
      have hnone : ∀ t ∈ l, ¬(t.name = s.name) := by
        intro t ht heq
        exact hnd.1 (by rw [← heq]; exact List.mem_map_of_mem _ ht)
      rw [List.filter_eq_nil_iff.mpr (by intro t ht; simpa using hnone t ht)]
    · have hna : a.name ≠ s.name := by
        intro heq
        exact hnd.1 (by rw [heq]; exact List.mem_map_of_mem _ h)
      rw [List.filter_cons, if_neg (by simpa using hna)]
      exact ih hnd.2 h

/-- C1 (amended).  `_apply_boosts` multiplies the running score of a
symbol's name by that symbol's combined factor once per symbol
*occurrence* — ×1.5 if exported, ×2.0 if its lower-cased name is in the
entry-point set, ×1.2 if a class, compounding independently — so the
final score of a name is the raw score times the product of the factors
of *every* symbol carrying that name (all of which share the single
resulting per-name score).  When symbol names are pairwise distinct this
is exactly one application of each factor per name, as the original
claim states. -/
theorem c1_boost_per_occurrence (symbols : List Symbol) (scores : List (PyStr × ℚ))
    (n : PyStr) :
    (lookupScore (applyBoosts symbols scores) n
      = (lookupScore scores n).map fun v =>
          v * ((symbols.filter fun s => decide (s.name = n)).map boostFactor).prod)
    ∧ ((symbols.map Symbol.name).Nodup → ∀ s ∈ symbols, s.name = n →
        lookupScore (applyBoosts symbols scores) n
          = (lookupScore scores n).map fun v => v * boostFactor s) := by
  refine ⟨applyBoosts_lookup symbols scores n, fun hnd s hs hsn => ?_⟩
  rw [applyBoosts_lookup symbols scores n, ← hsn,
    filter_name_eq_of_nodup symbols s hnd hs]
  simp

/-- C1 witness: a single exported entry-point class named `main` with
raw score 1 ends at `1 × 1.5 × 2 × 1.2 = 18/5`. -/
theorem c1_boost_witness :
    (([mkSym "main" "class" true].map Symbol.name).Nodup)
    ∧ lookupScore (applyBoosts [mkSym "main" "class" true] [(pyStr "main", (1 : ℚ))])
        (pyStr "main") = some (18 / 5) := by
  refine ⟨by decide, ?_⟩
  have h := (c1_boost_per_occurrence [mkSym "main" "class" true]
    [(pyStr "main", (1 : ℚ))] (pyStr "main")).2 (by decide)
    (mkSym "main" "class" true) (by simp) rfl
  rw [h]
  have hb : boostFactor (mkSym "main" "class" true)
      = EXPORTED_BOOST * ENTRY_POINT_BOOST * CLASS_BOOST := by
    rw [boostFactor, if_pos (by decide), if_pos (by decide), if_pos (by decide)]
  have hl : lookupScore [(pyStr "main", (1 : ℚ))] (pyStr "main") = some 1 := by
    simp [lookupScore, List.find?]
  rw [hb, hl]
  norm_num [EXPORTED_BOOST, ENTRY_POINT_BOOST, CLASS_BOOST]

/-- C1 counterexample: with two symbols both named `a` and both
exported, the ×1.5 exported factor is applied twice for the one name
(the second iteration re-reads the already-boosted shared entry), giving
`1 × 1.5 × 1.5 = 9/4` — not the `1 × 1.5 = 3/2` that "each factor
applied at most once per name" requires. -/
theorem c1_boost_counterexample :
    lookupScore (applyBoosts [mkSym "a" "function" true, mkSym "a" "function" true]
        [(pyStr "a", (1 : ℚ))]) (pyStr "a") = some (9 / 4)
    ∧ ((9 : ℚ) / 4) ≠ 1 * EXPORTED_BOOST := by
  constructor
  · rw [applyBoosts_lookup]
    have hf : (([mkSym "a" "function" true, mkSym "a" "function" true] : List Symbol).filter
        fun s => decide (s.name = pyStr "a"))
        = [mkSym "a" "function" true, mkSym "a" "function" true] := by decide
    have hb : boostFactor (mkSym "a" "function" true) = EXPORTED_BOOST := by
      rw [boostFactor, if_pos (by decide), if_neg (by decide), if_neg (by decide)]
      ring
    have hl : lookupScore [(pyStr "a", (1 : ℚ))] (pyStr "a") = some 1 := by
      simp [lookupScore, List.find?]
    rw [hf, hl]
    simp only [List.map_cons, List.map_nil, List.prod_cons, List.prod_nil, hb,
      Option.map_some]
    norm_num [EXPORTED_BOOST]
  · norm_num [EXPORTED_BOOST]

/-! ## The node set of the built graph -/

theorem mem_foldl_insertKey (l : List PyStr) (acc : List PyStr) (y : PyStr) :
    (y ∈ l.foldl (fun acc n => if acc.contains n then acc else acc ++ [n]) acc)
      ↔ y ∈ acc ∨ y ∈ l := by
  induction l generalizing acc with
  | nil => simp
  | cons n l ih =>
    rw [List.foldl_cons, ih]
    by_cases h : acc.contains n
    · rw [if_pos h]
      have hn : n ∈ acc := by simpa using h
      constructor
      · rintro (h1 | h1)
        · exact Or.inl h1
        · exact Or.inr (List.mem_cons_of_mem _ h1)
      · rintro (h1 | h1)
        · exact Or.inl h1
        · rcases List.mem_cons.mp h1 with h2 | h2
          · subst h2
            exact Or.inl hn
          · exact Or.inr h2
    · rw [if_neg h]
      simp only [List.mem_append, List.mem_singleton, List.mem_cons]
      tauto

theorem mem_firstKeys (l : List PyStr) (y : PyStr) : y ∈ firstKeys l ↔ y ∈ l := by
  unfold firstKeys
  rw [mem_foldl_insertKey]
  simp

theorem addNode_of_mem (g : DiGraph) (n : PyStr) (h : n ∈ g.nodes) : addNode g n = g := by
  unfold addNode
  rw [if_pos (by simpa using h)]

theorem addNode_nodes_eq (g : DiGraph) (n : PyStr) :
    (addNode g n).nodes = if g.nodes.contains n then g.nodes else g.nodes ++ [n] := by
  unfold addNode
  split <;> rfl

theorem addEdge_nodes_of_mem (g : DiGraph) (s t : PyStr) (w : ℚ) (k : PyStr)
    (hs : s ∈ g.nodes) (ht : t ∈ g.nodes) : (addEdge g s t w k).nodes = g.nodes := by
  unfold addEdge
  rw [addNode_of_mem g s hs, addNode_of_mem g t ht]
  dsimp only
  split <;> rfl

theorem nodesGraph_nodes (symbols : List Symbol) :
    (nodesGraph symbols).nodes = firstKeys (symbols.map Symbol.name) := by
  have aux : ∀ (l : List Symbol) (g : DiGraph),
      (l.foldl (fun g s => addNode g s.name) g).nodes
        = (l.map Symbol.name).foldl
            (fun acc n => if acc.contains n then acc else acc ++ [n]) g.nodes := by
    intro l
    induction l with
    | nil => intro g; rfl
    | cons s l ih =>
      intro g
      rw [List.map_cons, List.foldl_cons, List.foldl_cons, ih, addNode_nodes_eq]
  unfold nodesGraph firstKeys
  exact aux symbols _

/-- Every `add_edge` whose endpoints are symbol names leaves a node set
that already holds all symbol names unchanged. -/
theorem addEdge_nodes_invariant (symbols : List Symbol) (g : DiGraph) (s t : PyStr)
    (w : ℚ) (k : PyStr) (hP : g.nodes = firstKeys (symbols.map Symbol.name))
    (hs : s ∈ symbols.map Symbol.name) (ht : t ∈ symbols.map Symbol.name) :
    (addEdge g s t w k).nodes = firstKeys (symbols.map Symbol.name) := by
  rw [addEdge_nodes_of_mem g s t w k
    (by rw [hP]; exact (mem_firstKeys _ _).mpr hs)
    (by rw [hP]; exact (mem_firstKeys _ _).mpr ht)]
  exact hP

theorem addCallEdges_nodes (symbols : List Symbol) (calls : List PyStr) (g : DiGraph)
    (hP : g.nodes = firstKeys (symbols.map Symbol.name)) :
    (addCallEdges g symbols calls).nodes = firstKeys (symbols.map Symbol.name) := by
  unfold addCallEdges
  refine foldl_preserve_mem _ (fun g => g.nodes = firstKeys (symbols.map Symbol.name))
    calls (fun g c _ hg => ?_) g hP
  unfold callEdgesForCall
  refine foldl_preserve_mem _ (fun g => g.nodes = firstKeys (symbols.map Symbol.name))
    symbols (fun g s hs hg2 => ?_) g hg
  dsimp only at hg2 ⊢
  by_cases h1 : s.name = lastDotted c
  · rw [if_pos h1]
    unfold callEdgeInner
    refine foldl_preserve_mem _ (fun g => g.nodes = firstKeys (symbols.map Symbol.name))
      symbols (fun g o ho hg3 => ?_) g hg2
    dsimp only at hg3 ⊢
    by_cases h2 : o.name ≠ s.name
    · rw [if_pos h2]
      by_cases h3 : hasEdge g o.name s.name
      · rw [if_pos h3]
        exact hg3
      · rw [if_neg h3]
        exact addEdge_nodes_invariant symbols g _ _ _ _ hg3
          (List.mem_map_of_mem _ ho) (List.mem_map_of_mem _ hs)
    · rw [if_neg h2]
      exact hg3
  · rw [if_neg h1]
    exact hg2

theorem addImportEdges_nodes (symbols : List Symbol) (imports : List PyStr) (g : DiGraph)
    (hP : g.nodes = firstKeys (symbols.map Symbol.name)) :
    (addImportEdges g symbols imports).nodes = firstKeys (symbols.map Symbol.name) := by
  unfold addImportEdges
  refine foldl_preserve_mem _ (fun g => g.nodes = firstKeys (symbols.map Symbol.name))
    imports (fun g stmt _ hg => ?_) g hP
  dsimp only at hg ⊢
  unfold importEdgesForName
  refine foldl_preserve_mem _ (fun g => g.nodes = firstKeys (symbols.map Symbol.name))
    (extractImportedNames stmt) (fun g nm _ hg2 => ?_) g hg
  dsimp only at hg2 ⊢
  refine foldl_preserve_mem _ (fun g => g.nodes = firstKeys (symbols.map Symbol.name))
    symbols (fun g sym hsym hg3 => ?_) g hg2
  dsimp only at hg3 ⊢
  by_cases h1 : sym.name = nm
  · rw [if_pos h1]
    exact addEdge_nodes_invariant symbols g _ _ _ _ hg3
      (List.mem_map_of_mem _ hsym) (List.mem_map_of_mem _ hsym)
  · rw [if_neg h1]
    exact hg3

theorem addContainmentEdges_nodes (symbols : List Symbol) (g : DiGraph)
    (hP : g.nodes = firstKeys (symbols.map Symbol.name)) :
    (addContainmentEdges g symbols).nodes = firstKeys (symbols.map Symbol.name) := by
  unfold addContainmentEdges
  refine foldl_preserve_mem _ (fun g => g.nodes = firstKeys (symbols.map Symbol.name))
    _ (fun g m hm hg => ?_) g hP
  dsimp only at hg ⊢
  unfold containStep
  by_cases h1 : m.name.contains '.'
  · rw [if_pos h1]
    by_cases h2 : (symbols.filter fun s => decide (s.type = pyStr "class")).any
        fun c => decide (c.name = firstDotted m.name)
    · rw [if_pos h2]
      rcases List.any_eq_true.mp h2 with ⟨c, hc, hcn⟩
      have hcn2 : c.name = firstDotted m.name := by simpa using hcn
      refine addEdge_nodes_invariant symbols g _ _ _ _ hg
        (List.mem_map_of_mem _ (List.mem_of_mem_filter hm)) ?_
      rw [← hcn2]
      exact List.mem_map_of_mem _ (List.mem_of_mem_filter hc)
    · rw [if_neg h2]
      exact hg
  · rw [if_neg h1]
    exact hg

/-- The node set of the built dependency graph is exactly the symbol
names, first occurrences in order (the spec's node-set invariant). -/
theorem buildDependencyGraph_nodes (symbols : List Symbol) (imports calls : List PyStr) :
    (buildDependencyGraph symbols imports calls).nodes
      = firstKeys (symbols.map Symbol.name) := by
  unfold buildDependencyGraph
  exact addContainmentEdges_nodes symbols _
    (addImportEdges_nodes symbols imports _
      (addCallEdges_nodes symbols calls _ (nodesGraph_nodes symbols)))

/-! ## Claim C2 — call edges -/

theorem nodesGraph_edges (symbols : List Symbol) : (nodesGraph symbols).edges = [] := by
  have h : ∀ (l : List Symbol) (g : DiGraph), g.edges = [] →
      (l.foldl (fun g s => addNode g s.name) g).edges = [] := by
    intro l
    induction l with
    | nil => exact fun g hg => hg
    | cons s l ih => exact fun g hg => ih _ (by rw [addNode_edges]; exact hg)
  exact h symbols _ rfl

/-- Every edge present after the inner caller loop is an old edge or has
the written call shape. -/
theorem callEdgeInner_sound (pool : List Symbol) (callee : Symbol) (g : DiGraph)
    (P : GEdge → Prop) (hg : ∀ e ∈ g.edges, P e)
    (hnew : ∀ o ∈ pool, o.name ≠ callee.name →
      P { src := o.name, tgt := callee.name, weight := 2, kind := pyStr "call" }) :
    ∀ e ∈ (callEdgeInner pool callee g).edges, P e := by
  unfold callEdgeInner
  refine foldl_preserve_mem _ (fun g => ∀ e ∈ g.edges, P e) pool (fun g o ho hP => ?_) g hg
  dsimp only at hP ⊢
  by_cases h1 : o.name ≠ callee.name
  · rw [if_pos h1]
    by_cases h2 : hasEdge g o.name callee.name
    · rw [if_pos h2]
      exact hP
    · rw [if_neg h2]
      intro e he
      rw [addEdge_edges_of_not_hasEdge _ _ _ _ _ (by simpa using h2)] at he
      rcases List.mem_append.mp he with he | he
      · exact hP e he
      · rw [List.mem_singleton] at he
        subst he
        exact hnew o ho h1
  · rw [if_neg h1]
    exact hP

/-- The inner caller loop never loses an ordered pair. -/
theorem callEdgeInner_key_mem (pool : List Symbol) (callee : Symbol) (g : DiGraph)
    (a b : PyStr) (h : ∃ e ∈ g.edges, e.src = a ∧ e.tgt = b) :
    ∃ e ∈ (callEdgeInner pool callee g).edges, e.src = a ∧ e.tgt = b := by
  unfold callEdgeInner
  refine foldl_preserve_mem _ (fun g => ∃ e ∈ g.edges, e.src = a ∧ e.tgt = b) pool
    (fun g o _ hP => ?_) g h
  dsimp only at hP ⊢
  by_cases h1 : o.name ≠ callee.name
  · rw [if_pos h1]
    by_cases h2 : hasEdge g o.name callee.name
    · rw [if_pos h2]
      exact hP
    · rw [if_neg h2]
      exact addEdge_key_mem _ _ _ _ _ _ _ hP
  · rw [if_neg h1]
    exact hP

/-- The per-call loop never loses an ordered pair. -/
theorem callEdgesForCall_key_mem (symbols : List Symbol) (g : DiGraph) (c : PyStr)
    (a b : PyStr) (h : ∃ e ∈ g.edges, e.src = a ∧ e.tgt = b) :
    ∃ e ∈ (callEdgesForCall symbols g c).edges, e.src = a ∧ e.tgt = b := by
  unfold callEdgesForCall
  refine foldl_preserve_mem _ (fun g => ∃ e ∈ g.edges, e.src = a ∧ e.tgt = b) symbols
    (fun g s _ hP => ?_) g h
  dsimp only at hP ⊢
  by_cases h1 : s.name = lastDotted c
  · rw [if_pos h1]
    exact callEdgeInner_key_mem _ _ _ _ _ hP
  · rw [if_neg h1]
    exact hP

/-- The whole call stage never loses an ordered pair. -/
theorem addCallEdges_key_mem (symbols : List Symbol) (calls : List PyStr) (g : DiGraph)
    (a b : PyStr) (h : ∃ e ∈ g.edges, e.src = a ∧ e.tgt = b) :
    ∃ e ∈ (addCallEdges g symbols calls).edges, e.src = a ∧ e.tgt = b := by
  unfold addCallEdges
  exact foldl_preserve_mem _ (fun g => ∃ e ∈ g.edges, e.src = a ∧ e.tgt = b) calls
    (fun g c _ hP => callEdgesForCall_key_mem symbols g c a b hP) g h

/-- The import stage never loses an ordered pair. -/
theorem addImportEdges_key_mem (symbols : List Symbol) (imports : List PyStr) (g : DiGraph)
    (a b : PyStr) (h : ∃ e ∈ g.edges, e.src = a ∧ e.tgt = b) :
    ∃ e ∈ (addImportEdges g symbols imports).edges, e.src = a ∧ e.tgt = b := by
  unfold addImportEdges
  refine foldl_preserve_mem _ (fun g => ∃ e ∈ g.edges, e.src = a ∧ e.tgt = b) imports
    (fun g stmt _ hP => ?_) g h
  dsimp only at hP ⊢
  unfold importEdgesForName
  refine foldl_preserve_mem _ (fun g => ∃ e ∈ g.edges, e.src = a ∧ e.tgt = b)
    (extractImportedNames stmt) (fun g nm _ hP2 => ?_) g hP
  dsimp only at hP2 ⊢
  refine foldl_preserve_mem _ (fun g => ∃ e ∈ g.edges, e.src = a ∧ e.tgt = b) symbols
    (fun g sym _ hP3 => ?_) g hP2
  dsimp only at hP3 ⊢
  by_cases h1 : sym.name = nm
  · rw [if_pos h1]
    exact addEdge_key_mem _ _ _ _ _ _ _ hP3
  · rw [if_neg h1]
    exact hP3

/-- The containment stage never loses an ordered pair. -/
theorem addContainmentEdges_key_mem (symbols : List Symbol) (g : DiGraph)
    (a b : PyStr) (h : ∃ e ∈ g.edges, e.src = a ∧ e.tgt = b) :
    ∃ e ∈ (addContainmentEdges g symbols).edges, e.src = a ∧ e.tgt = b := by
  unfold addContainmentEdges
  refine foldl_preserve_mem _ (fun g => ∃ e ∈ g.edges, e.src = a ∧ e.tgt = b) _
    (fun g m _ hP => ?_) g h
  dsimp only at hP ⊢
  unfold containStep
  by_cases h1 : m.name.contains '.'
  · rw [if_pos h1]
    by_cases h2 : (symbols.filter fun s => decide (s.type = pyStr "class")).any
        fun c => decide (c.name = firstDotted m.name)
    · rw [if_pos h2]
      exact addEdge_key_mem _ _ _ _ _ _ _ hP
    · rw [if_neg h2]
      exact hP
  · rw [if_neg h1]
    exact hP

/-- Soundness of the call stage against an edge predicate closed under
the edges it writes. -/
theorem addCallEdges_sound (symbols : List Symbol) (calls : List PyStr) (g : DiGraph)
    (P : GEdge → Prop) (hg : ∀ e ∈ g.edges, P e)
    (hnew : ∀ c ∈ calls, ∀ s ∈ symbols, s.name = lastDotted c →
      ∀ o ∈ symbols, o.name ≠ s.name →
        P { src := o.name, tgt := s.name, weight := 2, kind := pyStr "call" }) :
    ∀ e ∈ (addCallEdges g symbols calls).edges, P e := by
  unfold addCallEdges
  refine foldl_preserve_mem _ (fun g => ∀ e ∈ g.edges, P e) calls (fun g c hc hP => ?_) g hg
  unfold callEdgesForCall
  refine foldl_preserve_mem _ (fun g => ∀ e ∈ g.edges, P e) symbols
    (fun g s hs hP2 => ?_) g hP
  dsimp only at hP2 ⊢
  by_cases hname : s.name = lastDotted c
  · rw [if_pos hname]
    exact callEdgeInner_sound symbols s g P hP2
      (fun o ho hne => hnew c hc s hs hname o ho hne)
  · rw [if_neg hname]
    exact hP2

/-- Completeness of the call stage: each required caller→callee pair is
present afterwards. -/
theorem addCallEdges_complete (symbols : List Symbol) (calls : List PyStr) (g : DiGraph)
    (c : PyStr) (hc : c ∈ calls) (s : Symbol) (hs : s ∈ symbols)
    (hname : s.name = lastDotted c) (o : Symbol) (ho : o ∈ symbols)
    (hne : o.name ≠ s.name) :
    ∃ e ∈ (addCallEdges g symbols calls).edges, e.src = o.name ∧ e.tgt = s.name := by
  unfold addCallEdges
  refine foldl_reach_mem _ (fun g => ∃ e ∈ g.edges, e.src = o.name ∧ e.tgt = s.name) calls
    (fun g c' _ hP => callEdgesForCall_key_mem symbols g c' _ _ hP) c hc (fun g => ?_) g
  unfold callEdgesForCall
  refine foldl_reach_mem
    (fun g sym => if sym.name = lastDotted c then callEdgeInner symbols sym g else g)
    (fun g => ∃ e ∈ g.edges, e.src = o.name ∧ e.tgt = s.name) symbols
    (fun g s' _ hP => by
      dsimp only at hP ⊢
      by_cases h1 : s'.name = lastDotted c
      · rw [if_pos h1]
        exact callEdgeInner_key_mem _ _ _ _ _ hP
      · rw [if_neg h1]
        exact hP)
    s hs (fun g => ?_) g
  dsimp only
  rw [if_pos hname]
  unfold callEdgeInner
  refine foldl_reach_mem
    (fun g other => if other.name ≠ s.name then
      (if hasEdge g other.name s.name then g
       else addEdge g other.name s.name 2 (pyStr "call"))
      else g)
    (fun g => ∃ e ∈ g.edges, e.src = o.name ∧ e.tgt = s.name) symbols
    (fun g o' _ hP => by
      dsimp only at hP ⊢
      by_cases h1 : o'.name ≠ s.name
      · rw [if_pos h1]
        by_cases h2 : hasEdge g o'.name s.name
        · rw [if_pos h2]
          exact hP
        · rw [if_neg h2]
          exact addEdge_key_mem _ _ _ _ _ _ _ hP
      · rw [if_neg h1]
        exact hP)
    o ho (fun g => ?_) g
  dsimp only
  rw [if_pos hne]
  by_cases h2 : hasEdge g o.name s.name
  · rw [if_pos h2]
    exact (hasEdge_iff g o.name s.name).mp h2
  · rw [if_neg h2, addEdge_edges_of_not_hasEdge _ _ _ _ _ (by simpa using h2)]
    exact ⟨{ src := o.name, tgt := s.name, weight := 2, kind := pyStr "call" },
      List.mem_append_right _ (List.mem_singleton.mpr rfl), rfl, rfl⟩

/-- The call stage keeps the ordered pairs duplicate-free. -/
theorem addCallEdges_keys_nodup (symbols : List Symbol) (calls : List PyStr) (g : DiGraph)
    (h : (g.edges.map fun e => (e.src, e.tgt)).Nodup) :
    ((addCallEdges g symbols calls).edges.map fun e => (e.src, e.tgt)).Nodup := by
  unfold addCallEdges
  refine foldl_preserve_mem _ (fun g => (g.edges.map fun e => (e.src, e.tgt)).Nodup) calls
    (fun g c _ hP => ?_) g h
  unfold callEdgesForCall
  refine foldl_preserve_mem _ (fun g => (g.edges.map fun e => (e.src, e.tgt)).Nodup) symbols
    (fun g s _ hP2 => ?_) g hP
  dsimp only at hP2 ⊢
  by_cases h1 : s.name = lastDotted c
  · rw [if_pos h1]
    unfold callEdgeInner
    refine foldl_preserve_mem _ (fun g => (g.edges.map fun e => (e.src, e.tgt)).Nodup) symbols
      (fun g o _ hP3 => ?_) g hP2
    dsimp only at hP3 ⊢
    by_cases h2 : o.name ≠ s.name
    · rw [if_pos h2]
      by_cases h3 : hasEdge g o.name s.name
      · rw [if_pos h3]
        exact hP3
      · rw [if_neg h3]
        exact addEdge_keys_nodup _ _ _ _ _ hP3
    · rw [if_neg h2]
      exact hP3
  · rw [if_neg h1]
    exact hP2

/-- C2.  In the call-edge stage of `_build_dependency_graph`, every raw
call expression contributes, via its last dotted component, an edge of
weight 2.0 and kind `call` from every differently-named symbol to every
symbol matching the component; every resulting edge is of that form, no
call edge is a self-loop, and no ordered pair occurs twice.  Every such
caller→callee pair moreover persists as an edge of the fully built
graph, whatever the imports. -/
theorem c2_call_edges (symbols : List Symbol) (calls : List PyStr) :
    (∀ e ∈ (addCallEdges (nodesGraph symbols) symbols calls).edges,
        e.weight = 2 ∧ e.kind = pyStr "call" ∧ e.src ≠ e.tgt ∧
        (∃ c ∈ calls, e.tgt = lastDotted c) ∧ (∃ s ∈ symbols, s.name = e.tgt) ∧
        (∃ o ∈ symbols, o.name = e.src))
    ∧ (∀ c ∈ calls, ∀ s ∈ symbols, s.name = lastDotted c →
        ∀ o ∈ symbols, o.name ≠ s.name →
          ∃ e ∈ (addCallEdges (nodesGraph symbols) symbols calls).edges,
            e.src = o.name ∧ e.tgt = s.name ∧ e.weight = 2 ∧ e.kind = pyStr "call")
    ∧ ((addCallEdges (nodesGraph symbols) symbols calls).edges.map
        fun e => (e.src, e.tgt)).Nodup
    ∧ (∀ (imports : List PyStr), ∀ c ∈ calls, ∀ s ∈ symbols, s.name = lastDotted c →
        ∀ o ∈ symbols, o.name ≠ s.name →
          ∃ e ∈ (buildDependencyGraph symbols imports calls).edges,
            e.src = o.name ∧ e.tgt = s.name) := by
  have hsound : ∀ e ∈ (addCallEdges (nodesGraph symbols) symbols calls).edges,
      e.weight = 2 ∧ e.kind = pyStr "call" ∧ e.src ≠ e.tgt ∧
      (∃ c ∈ calls, e.tgt = lastDotted c) ∧ (∃ s ∈ symbols, s.name = e.tgt) ∧
      (∃ o ∈ symbols, o.name = e.src) := by
    refine addCallEdges_sound symbols calls _ _ (fun e he => ?_)
      (fun c hc s hs hname o ho hne => ?_)
    · rw [nodesGraph_edges] at he
      cases he
    · exact ⟨rfl, rfl, hne, ⟨c, hc, hname⟩, ⟨s, hs, rfl⟩, ⟨o, ho, rfl⟩⟩
  refine ⟨hsound, fun c hc s hs hname o ho hne => ?_, ?_, ?_⟩
  · rcases addCallEdges_complete symbols calls (nodesGraph symbols) c hc s hs hname o ho hne
      with ⟨e, he, hsrc, htgt⟩
    rcases hsound e he with ⟨hw, hk, _⟩
    exact ⟨e, he, hsrc, htgt, hw, hk⟩
  · exact addCallEdges_keys_nodup symbols calls _ (by rw [nodesGraph_edges]; simp)
  · intro imports c hc s hs hname o ho hne
    unfold buildDependencyGraph
    exact addContainmentEdges_key_mem symbols _ _ _
      (addImportEdges_key_mem symbols imports _ _ _
        (addCallEdges_complete symbols calls (nodesGraph symbols) c hc s hs hname o ho hne))

/-- C2 witness: a single call `"m.f"` and symbols `f`, `g` produce the
edge `g → f` with weight 2.0, kind `call`. -/
theorem c2_call_edges_witness :
    ∃ e ∈ (addCallEdges (nodesGraph [mkSym "f" "function" false, mkSym "g" "function" false])
        [mkSym "f" "function" false, mkSym "g" "function" false] [pyStr "m.f"]).edges,
      e.src = pyStr "g" ∧ e.tgt = pyStr "f" ∧ e.weight = 2 ∧ e.kind = pyStr "call" :=
  (c2_call_edges [mkSym "f" "function" false, mkSym "g" "function" false] [pyStr "m.f"]).2.1
    (pyStr "m.f") (by simp) (mkSym "f" "function" false) (by simp) (by decide)
    (mkSym "g" "function" false) (by simp) (by decide)

/-! ## Claim C5 — containment edges -/

/-- Once a containment edge is present, every later containment step
keeps it: a step either touches other ordered pairs or rewrites this one
with the identical attributes. -/
theorem containStep_mem_preserved (cls : List Symbol) (a : PyStr)
    (g : DiGraph) (m : Symbol)
    (h : ({ src := a, tgt := firstDotted a, weight := 3, kind := pyStr "inheritance" } : GEdge)
      ∈ g.edges) :
    ({ src := a, tgt := firstDotted a, weight := 3, kind := pyStr "inheritance" } : GEdge)
      ∈ (containStep cls g m).edges := by
  unfold containStep
  by_cases h1 : m.name.contains '.'
  · rw [if_pos h1]
    by_cases h2 : cls.any fun c => decide (c.name = firstDotted m.name)
    · rw [if_pos h2]
      by_cases hh : hasEdge g m.name (firstDotted m.name)
      · rw [addEdge_edges_of_hasEdge _ _ _ _ _ hh]
        refine List.mem_map.mpr ⟨_, h, ?_⟩
        by_cases hkey : a = m.name
        · rw [if_pos (by constructor <;> simp [hkey])]
          simp [hkey]
        · rw [if_neg (by intro hand; exact hkey hand.1)]
      · rw [addEdge_edges_of_not_hasEdge _ _ _ _ _ (by simpa using hh)]
        exact List.mem_append_left _ h
    · rw [if_neg h2]
      exact h
  · rw [if_neg h1]
    exact h

/-- C5.  For every symbol of kind `method` whose name contains a dot,
with some kind-`class` symbol named as the part before the first dot,
the built graph contains the weight-3.0 containment edge method→class
(stored with the source's `type="inheritance"` label, the spec's
`contains` kind); in particular `{class Foo, method Foo.bar}` with no
imports or calls yields the edge `Foo.bar → Foo` of weight 3.0. -/
theorem c5_containment_edge :
    (∀ (symbols : List Symbol) (imports calls : List PyStr) (m : Symbol),
      m ∈ symbols → m.type = pyStr "method" → m.name.contains '.' = true →
      (∃ c ∈ symbols, c.type = pyStr "class" ∧ c.name = firstDotted m.name) →
      ({ src := m.name, tgt := firstDotted m.name, weight := 3,
          kind := pyStr "inheritance" } : GEdge)
        ∈ (buildDependencyGraph symbols imports calls).edges)
    ∧ ({ src := pyStr "Foo.bar", tgt := pyStr "Foo", weight := 3,
          kind := pyStr "inheritance" } : GEdge)
        ∈ (buildDependencyGraph
            [mkSym "Foo" "class" false, mkSym "Foo.bar" "method" false] [] []).edges := by
  have main : ∀ (symbols : List Symbol) (imports calls : List PyStr) (m : Symbol),
      m ∈ symbols → m.type = pyStr "method" → m.name.contains '.' = true →
      (∃ c ∈ symbols, c.type = pyStr "class" ∧ c.name = firstDotted m.name) →
      ({ src := m.name, tgt := firstDotted m.name, weight := 3,
          kind := pyStr "inheritance" } : GEdge)
        ∈ (buildDependencyGraph symbols imports calls).edges := by
    intro symbols imports calls m hm htype hdot hcls
    unfold buildDependencyGraph addContainmentEdges
    refine foldl_reach_mem
      (containStep (symbols.filter fun s => decide (s.type = pyStr "class")))
      (fun g => GEdge.mk m.name (firstDotted m.name) 3 (pyStr "inheritance") ∈ g.edges)
      (symbols.filter fun s => decide (s.type = pyStr "method"))
      (fun g m' _ hP => containStep_mem_preserved _ _ g m' hP)
      m (List.mem_filter.mpr ⟨hm, by simpa using htype⟩) (fun g => ?_) _
    unfold containStep
    rw [if_pos hdot]
    rw [if_pos (by
      rcases hcls with ⟨c, hc, hct, hcn⟩
      refine List.any_eq_true.mpr ⟨c, List.mem_filter.mpr ⟨hc, by simpa using hct⟩, ?_⟩
      simpa using hcn)]
    exact addEdge_mem_new g m.name (firstDotted m.name) 3 (pyStr "inheritance")
  refine ⟨main, ?_⟩
  have h := main [mkSym "Foo" "class" false, mkSym "Foo.bar" "method" false] [] []
    (mkSym "Foo.bar" "method" false) (by simp) rfl (by decide)
    ⟨mkSym "Foo" "class" false, by simp, rfl, by decide⟩
  have heq : firstDotted (pyStr "Foo.bar") = pyStr "Foo" := by decide
  rw [show (pyStr "Foo.bar") = (mkSym "Foo.bar" "method" false).name from rfl, ← heq]
  exact h

/-! ## Claims C3, C10, C6 — normalization and fallback -/

theorem rank_symbols_eq (pr : DiGraph → Except PyStr (List (PyStr × ℚ)))
    (symbols : List Symbol) (imports calls : List PyStr) (hne : symbols ≠ []) :
    rank_symbols pr symbols imports calls
      = normalizeScores (boostedScoresOf pr symbols imports calls) := by
  unfold rank_symbols
  rw [if_neg (by simpa [List.isEmpty_iff] using hne)]

theorem firstKeys_ne_nil (l : List PyStr) (h : l ≠ []) : firstKeys l ≠ [] := by
  cases l with
  | nil => exact absurd rfl h
  | cons n rest =>
    unfold firstKeys
    rw [List.foldl_cons]
    have hstep : (if ([] : List PyStr).contains n then ([] : List PyStr) else [] ++ [n])
        = [n] := by simp
    rw [hstep]
    refine foldl_preserve_mem _ (fun acc => acc ≠ []) rest (fun acc x _ ha => ?_) [n] (by simp)
    dsimp only
    split
    · exact ha
    · simp

theorem normalizeScores_keys (d : List (PyStr × ℚ)) :
    (normalizeScores d).map Prod.fst = d.map Prod.fst := by
  unfold normalizeScores
  by_cases hd : d.isEmpty
  · rw [if_pos hd, List.isEmpty_iff.mp hd]
  · rw [if_neg hd]
    dsimp only
    split <;> simp [List.map_map, Function.comp]

/-- The keys of the boosted score dict, under the `networkx.pagerank`
contract (the returned dict is keyed by the graph's nodes). -/
theorem boostedScoresOf_keys (pr : DiGraph → Except PyStr (List (PyStr × ℚ)))
    (symbols : List Symbol) (imports calls : List PyStr)
    (hpr : ∀ s, pr (buildDependencyGraph symbols imports calls) = Except.ok s →
      s.map Prod.fst = (buildDependencyGraph symbols imports calls).nodes) :
    (boostedScoresOf pr symbols imports calls).map Prod.fst
      = firstKeys (symbols.map Symbol.name) := by
  unfold boostedScoresOf pagerankOrFallback
  cases hh : pr (buildDependencyGraph symbols imports calls) with
  | ok s => rw [applyBoosts_keys, hpr s hh, buildDependencyGraph_nodes]
  | error e =>
    rw [applyBoosts_keys]
    unfold uniformScores
    rw [List.map_map]
    have hid : (Prod.fst ∘ fun n : PyStr => (n, (1 : ℚ))) = id := rfl
    rw [hid, List.map_id]

theorem boostedScoresOf_ne_nil (pr : DiGraph → Except PyStr (List (PyStr × ℚ)))
    (symbols : List Symbol) (imports calls : List PyStr) (hne : symbols ≠ [])
    (hpr : ∀ s, pr (buildDependencyGraph symbols imports calls) = Except.ok s →
      s.map Prod.fst = (buildDependencyGraph symbols imports calls).nodes) :
    boostedScoresOf pr symbols imports calls ≠ [] := by
  intro hcontra
  have hkeys := boostedScoresOf_keys pr symbols imports calls hpr
  rw [hcontra] at hkeys
  exact firstKeys_ne_nil (symbols.map Symbol.name) (by simpa using hne) hkeys.symm

theorem normalizeScores_eq (d : List (PyStr × ℚ)) (hd : d ≠ []) :
    normalizeScores d =
      if listMaxQ (d.map (·.2)) = listMinQ (d.map (·.2))
      then d.map fun p => (p.1, 1)
      else d.map fun p =>
        (p.1, (p.2 - listMinQ (d.map (·.2)))
          / (listMaxQ (d.map (·.2)) - listMinQ (d.map (·.2)))) := by
  unfold normalizeScores
  rw [if_neg (by simpa [List.isEmpty_iff] using hd)]

theorem normalizeScores_bounds (d : List (PyStr × ℚ)) (hd : d ≠ []) :
    ∀ p ∈ normalizeScores d, 0 ≤ p.2 ∧ p.2 ≤ 1 := by
  intro p hp
  rw [normalizeScores_eq d hd] at hp
  by_cases hmm : listMaxQ (d.map (·.2)) = listMinQ (d.map (·.2))
  · rw [if_pos hmm] at hp
    rcases List.mem_map.mp hp with ⟨q, _, rfl⟩
    norm_num
  · rw [if_neg hmm] at hp
    rcases List.mem_map.mp hp with ⟨q, hq, rfl⟩
    have hq2 : q.2 ∈ d.map (·.2) := List.mem_map_of_mem _ hq
    have hmn : listMinQ (d.map (·.2)) ≤ q.2 := listMinQ_le _ _ hq2
    have hmx : q.2 ≤ listMaxQ (d.map (·.2)) := le_listMaxQ _ _ hq2
    have hlt : listMinQ (d.map (·.2)) < listMaxQ (d.map (·.2)) :=
      (le_trans hmn hmx).lt_of_ne fun heq => hmm heq.symm
    constructor
    · exact div_nonneg (by linarith) (by linarith)
    · rw [div_le_one (by linarith)]
      linarith

theorem normalizeScores_exists_one (d : List (PyStr × ℚ)) (hd : d ≠ []) :
    ∃ p ∈ normalizeScores d, p.2 = 1 := by
  rw [normalizeScores_eq d hd]
  have hvals : d.map (·.2) ≠ [] := by simpa using hd
  by_cases hmm : listMaxQ (d.map (·.2)) = listMinQ (d.map (·.2))
  · rw [if_pos hmm]
    cases d with
    | nil => exact absurd rfl hd
    | cons q rest => exact ⟨(q.1, 1), List.mem_map_of_mem _ (List.mem_cons_self _ _), rfl⟩
  · rw [if_neg hmm]
    rcases List.mem_map.mp (listMaxQ_mem _ hvals) with ⟨q, hq, hq2⟩
    refine ⟨_, List.mem_map_of_mem _ hq, ?_⟩
    show (q.2 - listMinQ (d.map (·.2)))
      / (listMaxQ (d.map (·.2)) - listMinQ (d.map (·.2))) = 1
    rw [hq2, div_self (sub_ne_zero.mpr hmm)]

theorem normalizeScores_all_one (d : List (PyStr × ℚ)) (hd : d ≠ [])
    (hmm : listMaxQ (d.map (·.2)) = listMinQ (d.map (·.2))) :
    ∀ p ∈ normalizeScores d, p.2 = 1 := by
  rw [normalizeScores_eq d hd, if_pos hmm]
  intro p hp
  rcases List.mem_map.mp hp with ⟨q, _, rfl⟩
  rfl

theorem normalizeScores_min_zero (d : List (PyStr × ℚ)) (hd : d ≠ [])
    (hmm : listMaxQ (d.map (·.2)) ≠ listMinQ (d.map (·.2))) :
    ∀ p ∈ d, p.2 = listMinQ (d.map (·.2)) → (p.1, (0 : ℚ)) ∈ normalizeScores d := by
  rw [normalizeScores_eq d hd, if_neg hmm]
  intro p hp hmin
  refine List.mem_map.mpr ⟨p, hp, ?_⟩
  rw [hmin, sub_self, zero_div]

/-- C3.  For non-empty input (and a centrality oracle that, like
`networkx.pagerank`, returns a score dict keyed by the graph's nodes),
every score out of `rank_symbols` lies in `[0,1]`, some entry — keyed by
an actual symbol name — is exactly 1.0, the all-equal case maps every
entry to exactly 1.0, and otherwise the output is exactly the min-max
scaling `(score-min)/(max-min)` of the boosted scores. -/
theorem c3_normalization (pr : DiGraph → Except PyStr (List (PyStr × ℚ)))
    (symbols : List Symbol) (imports calls : List PyStr)
    (hne : symbols ≠ [])
    (hpr : ∀ s, pr (buildDependencyGraph symbols imports calls) = Except.ok s →
      s.map Prod.fst = (buildDependencyGraph symbols imports calls).nodes) :
    (∀ p ∈ rank_symbols pr symbols imports calls, 0 ≤ p.2 ∧ p.2 ≤ 1)
    ∧ (∃ p ∈ rank_symbols pr symbols imports calls, p.2 = 1)
    ∧ (∃ n ∈ symbols.map Symbol.name,
        (n, (1 : ℚ)) ∈ rank_symbols pr symbols imports calls)
    ∧ (listMaxQ ((boostedScoresOf pr symbols imports calls).map (·.2))
          = listMinQ ((boostedScoresOf pr symbols imports calls).map (·.2)) →
        ∀ p ∈ rank_symbols pr symbols imports calls, p.2 = 1)
    ∧ (listMaxQ ((boostedScoresOf pr symbols imports calls).map (·.2))
          ≠ listMinQ ((boostedScoresOf pr symbols imports calls).map (·.2)) →
        rank_symbols pr symbols imports calls
          = (boostedScoresOf pr symbols imports calls).map fun p =>
              (p.1, (p.2 - listMinQ ((boostedScoresOf pr symbols imports calls).map (·.2)))
                / (listMaxQ ((boostedScoresOf pr symbols imports calls).map (·.2))
                  - listMinQ ((boostedScoresOf pr symbols imports calls).map (·.2))))) := by
  have hb := boostedScoresOf_ne_nil pr symbols imports calls hne hpr
  rw [rank_symbols_eq pr symbols imports calls hne]
  refine ⟨normalizeScores_bounds _ hb, normalizeScores_exists_one _ hb, ?_,
    fun h => normalizeScores_all_one _ hb h,
    fun h => by rw [normalizeScores_eq _ hb, if_neg h]⟩
  rcases normalizeScores_exists_one _ hb with ⟨p, hp, hp2⟩
  refine ⟨p.1, ?_, ?_⟩
  · have hmem : p.1 ∈ (normalizeScores (boostedScoresOf pr symbols imports calls)).map
        Prod.fst := List.mem_map_of_mem _ hp
    rw [normalizeScores_keys, boostedScoresOf_keys pr symbols imports calls hpr] at hmem
    exact (mem_firstKeys _ _).mp hmem
  · have hpe : (p.1, (1 : ℚ)) = p := by
      rw [← hp2]
    rw [hpe]
    exact hp

/-- C3 witness: one symbol, failing oracle — some normalized entry is
exactly 1. -/
theorem c3_normalization_witness :
    ∃ p ∈ rank_symbols errOracle [mkSym "x" "function" false] [] [], p.2 = 1 :=
  (c3_normalization errOracle [mkSym "x" "function" false] [] [] (by simp)
    (fun s h => Except.noConfusion h)).2.1

/-- C10.  Whenever the boosted scores entering normalization are not all
equal, the entry holding the minimum boosted score is normalized to
exactly 0.0, so some name scores exactly 0 in the ranking. -/
theorem c10_min_score_zero (pr : DiGraph → Except PyStr (List (PyStr × ℚ)))
    (symbols : List Symbol) (imports calls : List PyStr)
    (hne : symbols ≠ [])
    (hpr : ∀ s, pr (buildDependencyGraph symbols imports calls) = Except.ok s →
      s.map Prod.fst = (buildDependencyGraph symbols imports calls).nodes)
    (hneq : listMaxQ ((boostedScoresOf pr symbols imports calls).map (·.2))
      ≠ listMinQ ((boostedScoresOf pr symbols imports calls).map (·.2))) :
    ∃ p ∈ boostedScoresOf pr symbols imports calls,
      p.2 = listMinQ ((boostedScoresOf pr symbols imports calls).map (·.2))
      ∧ (p.1, (0 : ℚ)) ∈ rank_symbols pr symbols imports calls := by
  have hb := boostedScoresOf_ne_nil pr symbols imports calls hne hpr
  rcases List.mem_map.mp (listMinQ_mem ((boostedScoresOf pr symbols imports calls).map (·.2))
    (by simpa using hb)) with ⟨q, hq, hq2⟩
  refine ⟨q, hq, hq2, ?_⟩
  rw [rank_symbols_eq pr symbols imports calls hne]
  exact normalizeScores_min_zero _ hb hneq q hq hq2

/-- C10 witness: with the failing oracle and symbols `main` (entry-point
boost ×2) and `x`, the boosted dict is `{main: 2, x: 1}`; the minimum
holder `x` is normalized to exactly 0. -/
theorem c10_min_score_zero_witness :
    ∃ p ∈ boostedScoresOf errOracle
        [mkSym "main" "function" false, mkSym "x" "function" false] [] [],
      p.2 = listMinQ ((boostedScoresOf errOracle
        [mkSym "main" "function" false, mkSym "x" "function" false] [] []).map (·.2))
      ∧ (p.1, (0 : ℚ)) ∈ rank_symbols errOracle
          [mkSym "main" "function" false, mkSym "x" "function" false] [] [] := by
  have hu : uniformScores [mkSym "main" "function" false, mkSym "x" "function" false]
      = [(pyStr "main", 1), (pyStr "x", 1)] := by decide
  have hc1 : ENTRY_POINTS.contains (lowerL (pyStr "main")) = true := by decide
  have hc2 : ENTRY_POINTS.contains (lowerL (pyStr "x")) = false := by decide
  have hbmain : boostSymbol (mkSym "main" "function" false) 1 = 2 := by
    rw [boostSymbol_eq_factor, boostFactor, if_neg (by decide), if_pos (by decide),
      if_neg (by decide)]
    norm_num [ENTRY_POINT_BOOST]
  have hbx : boostSymbol (mkSym "x" "function" false) 1 = 1 := by
    rw [boostSymbol_eq_factor, boostFactor, if_neg (by decide), if_neg (by decide),
      if_neg (by decide)]
    norm_num
  have hbs : boostedScoresOf errOracle
      [mkSym "main" "function" false, mkSym "x" "function" false] [] []
      = [(pyStr "main", 2), (pyStr "x", 1)] := by
    show applyBoosts [mkSym "main" "function" false, mkSym "x" "function" false]
      (uniformScores [mkSym "main" "function" false, mkSym "x" "function" false]) = _
    rw [hu, applyBoosts_cons_some _ _ _ 1 (by decide), hbmain]
    rw [show updateScore [(pyStr "main", (1 : ℚ)), (pyStr "x", 1)]
        (mkSym "main" "function" false).name 2
        = [(pyStr "main", 2), (pyStr "x", 1)] from by decide]
    rw [applyBoosts_cons_some _ _ _ 1 (by decide), hbx]
    rw [show updateScore [(pyStr "main", (2 : ℚ)), (pyStr "x", 1)]
        (mkSym "x" "function" false).name 1
        = [(pyStr "main", 2), (pyStr "x", 1)] from by decide]
    rfl
  have hneq : listMaxQ ((boostedScoresOf errOracle
        [mkSym "main" "function" false, mkSym "x" "function" false] [] []).map (·.2))
      ≠ listMinQ ((boostedScoresOf errOracle
        [mkSym "main" "function" false, mkSym "x" "function" false] [] []).map (·.2)) := by
    rw [hbs]
    show max (2 : ℚ) 1 ≠ min 2 1
    rw [max_eq_left (by norm_num), min_eq_right (by norm_num)]
    norm_num
  exact c10_min_score_zero errOracle
    [mkSym "main" "function" false, mkSym "x" "function" false] [] []
    (by simp) (fun s h => Except.noConfusion h) hneq

/-- C6.  If the centrality computation raises, `rank_symbols` continues
with the uniform all-1.0 raw scores through boosting and normalization —
so the result no longer depends on the imports or calls at all. -/
theorem c6_uniform_fallback (pr : DiGraph → Except PyStr (List (PyStr × ℚ)))
    (symbols : List Symbol) (imports calls imports2 calls2 : List PyStr) (msg msg2 : PyStr)
    (hne : symbols ≠ [])
    (hfail : pr (buildDependencyGraph symbols imports calls) = Except.error msg)
    (hfail2 : pr (buildDependencyGraph symbols imports2 calls2) = Except.error msg2) :
    rank_symbols pr symbols imports calls
      = normalizeScores (applyBoosts symbols (uniformScores symbols))
    ∧ rank_symbols pr symbols imports calls = rank_symbols pr symbols imports2 calls2 := by
  have h1 : rank_symbols pr symbols imports calls
      = normalizeScores (applyBoosts symbols (uniformScores symbols)) := by
    rw [rank_symbols_eq pr symbols imports calls hne]
    unfold boostedScoresOf pagerankOrFallback
    rw [hfail]
  have h2 : rank_symbols pr symbols imports2 calls2
      = normalizeScores (applyBoosts symbols (uniformScores symbols)) := by
    rw [rank_symbols_eq pr symbols imports2 calls2 hne]
    unfold boostedScoresOf pagerankOrFallback
    rw [hfail2]
  exact ⟨h1, h1.trans h2.symm⟩

/-- C6 witness: the failing oracle on concrete inputs with different
imports/calls gives the same, boost-only result. -/
theorem c6_uniform_fallback_witness :
    rank_symbols errOracle [mkSym "x" "function" false] [pyStr "import y"] [pyStr "y.z"]
      = normalizeScores (applyBoosts [mkSym "x" "function" false]
          (uniformScores [mkSym "x" "function" false]))
    ∧ rank_symbols errOracle [mkSym "x" "function" false] [pyStr "import y"] [pyStr "y.z"]
      = rank_symbols errOracle [mkSym "x" "function" false] [] [] :=
  c6_uniform_fallback errOracle [mkSym "x" "function" false] [pyStr "import y"] [pyStr "y.z"]
    [] [] (pyStr "power iteration failed to converge")
    (pyStr "power iteration failed to converge") (by simp) rfl rfl

/-- C5 witness: the universal part applied to the `{Foo, Foo.bar}`
instance. -/
theorem c5_containment_witness :
    ({ src := pyStr "Foo.bar", tgt := firstDotted (pyStr "Foo.bar"), weight := 3,
        kind := pyStr "inheritance" } : GEdge)
      ∈ (buildDependencyGraph
          [mkSym "Foo" "class" false, mkSym "Foo.bar" "method" false] [] []).edges :=
  c5_containment_edge.1 [mkSym "Foo" "class" false, mkSym "Foo.bar" "method" false] [] []
    (mkSym "Foo.bar" "method" false) (by simp) rfl (by decide)
    ⟨mkSym "Foo" "class" false, by simp, rfl, by decide⟩

/-! ## Claim C4 — import-name extraction -/

theorem foldl_append_map {α β : Type*} (l : List α) (f : α → β) (acc : List β) :
    l.foldl (fun ns x => ns ++ [f x]) acc = acc ++ l.map f := by
  induction l generalizing acc with
  | nil => simp
  | cons x l ih =>
    rw [List.foldl_cons, ih]
    simp

/-- C4 (amended).  `_extract_imported_names` is the total function that
dispatches on the text's *prefix*: text starting with `from` and
containing ` import ` yields each comma-separated item after the first
` import ` with any `as`-alias stripped and whitespace trimmed; any
other text starting with `import` (a space after it not required) is
processed by the import rule — every occurrence of `import ` deleted,
items comma-split, alias-stripped, trimmed, and reduced to the last
dotted segment when dotted; text starting with neither `from` nor
`import` yields no names. -/
theorem c4_import_extraction (stmt : PyStr) :
    extractImportedNames stmt = specExtractNames stmt
    ∧ (listStartsWith (pyStr "from") stmt = false →
        listStartsWith (pyStr "import") stmt = false →
        extractImportedNames stmt = []) := by
  constructor
  · unfold extractImportedNames specExtractNames
    by_cases h1 : listStartsWith (pyStr "from") stmt
    · rw [if_pos h1, if_pos h1]
      by_cases h2 : strContainsL stmt (pyStr " import ")
      · rw [if_pos h2, if_pos h2]
        cases hsp : splitOnceL stmt (pyStr " import ") with
        | nil => rfl
        | cons a rest =>
          cases rest with
          | nil => rfl
          | cons b rest2 =>
            cases rest2 with
            | nil => exact (foldl_append_map _ fromItemName []).trans (by simp)
            | cons c rest3 => rfl
      · rw [if_neg h2, if_neg h2]
    · rw [if_neg h1, if_neg h1]
      by_cases h3 : listStartsWith (pyStr "import") stmt
      · rw [if_pos h3, if_pos h3]
        exact (foldl_append_map _ importItemName []).trans (by simp)
      · rw [if_neg h3, if_neg h3]
  · intro h1 h3
    unfold extractImportedNames
    rw [if_neg (by simp [h1]), if_neg (by simp [h3])]

/-- C4 witness: the two recognized forms and an unrecognized one, as
the amended rule computes them. -/
theorem c4_import_extraction_witness :
    (listStartsWith (pyStr "from") (pyStr "x = 1") = false)
    ∧ (listStartsWith (pyStr "import") (pyStr "x = 1") = false)
    ∧ extractImportedNames (pyStr "from m import a, b as c")
        = specExtractNames (pyStr "from m import a, b as c")
    ∧ extractImportedNames (pyStr "x = 1") = [] :=
  ⟨by decide, by decide, (c4_import_extraction (pyStr "from m import a, b as c")).1,
    (c4_import_extraction (pyStr "x = 1")).2 (by decide) (by decide)⟩

/-- C4 counterexample: `"importx"` matches neither of the spec's two
recognized textual forms — it is not `from <module> import ...` and not
`import <m1>, ...` (no space after `import`) — yet the code extracts the
name `importx` from it, refuting "any other import text form yields no
extracted names". -/
theorem c4_import_extraction_counterexample :
    specFromForm (pyStr "importx") = false
    ∧ specImportForm (pyStr "importx") = false
    ∧ extractImportedNames (pyStr "importx") = [pyStr "importx"]
    ∧ [pyStr "importx"] ≠ ([] : List PyStr) := by
  refine ⟨by decide, by decide, by decide, by decide⟩

/-! ## Claim C8 — per-file failure recovery -/

theorem foldl_parseStep_eq (f : PyStr → Except PyStr (Option ParseResult))
    (paths : List PyStr) (a : List Symbol) (b c : List PyStr) :
    paths.foldl (parseStep f) (a, b, c)
      = (a ++ paths.flatMap (fileSymbols f), b ++ paths.flatMap (fileImports f),
          c ++ paths.flatMap (fileCalls f)) := by
  induction paths generalizing a b c with
  | nil => simp
  | cons p ps ih =>
    rw [List.foldl_cons]
    cases hf : f p with
    | error e =>
      rw [show parseStep f (a, b, c) p = (a, b, c) from by simp [parseStep, hf]]
      rw [ih]
      simp [fileSymbols, fileImports, fileCalls, hf]
    | ok o =>
      cases o with
      | none =>
        rw [show parseStep f (a, b, c) p = (a, b, c) from by simp [parseStep, hf]]
        rw [ih]
        simp [fileSymbols, fileImports, fileCalls, hf]
      | some r =>
        rw [show parseStep f (a, b, c) p
            = (a ++ r.symbols.map (setFilePath p), b ++ r.imports, c ++ r.calls) from by
          simp [parseStep, hf]]
        rw [ih]
        simp [fileSymbols, fileImports, fileCalls, hf]

theorem fileSymbols_eq_nil_of_not_contributing (f : PyStr → Except PyStr (Option ParseResult))
    (p : PyStr) (h : fileContributes f p = false) :
    fileSymbols f p = [] ∧ fileImports f p = [] ∧ fileCalls f p = [] := by
  unfold fileContributes at h
  cases hf : f p with
  | error e => simp [fileSymbols, fileImports, fileCalls, hf]
  | ok o =>
    cases o with
    | none => simp [fileSymbols, fileImports, fileCalls, hf]
    | some r =>
      rw [hf] at h
      cases h

theorem flatMap_filter_contributes {β : Type*} (q : PyStr → Bool) (g : PyStr → List β)
    (l : List PyStr) (h : ∀ x, q x = false → g x = []) :
    (l.filter q).flatMap g = l.flatMap g := by
  induction l with
  | nil => rfl
  | cons x l ih =>
    rw [List.filter_cons]
    cases hq : q x with
    | true =>
      rw [if_pos rfl]
      simp only [List.flatMap_cons, ih]
    | false =>
      rw [if_neg (by simp)]
      simp only [List.flatMap_cons, ih, h x hq, List.nil_append]

/-- C8.  The per-file loop of `generate_map` accumulates exactly the
per-file contributions; a file on which fetching or parsing fails (or
that has no parser) contributes nothing, and dropping all such files
from the input leaves the accumulated symbols, imports and calls
unchanged — every successfully parsed file's contribution is kept.  The
loop itself is a total function: no failure escapes it. -/
theorem c8_per_file_recovery (f : PyStr → Except PyStr (Option ParseResult))
    (paths : List PyStr) :
    (accumulateParses f paths
      = (paths.flatMap (fileSymbols f), paths.flatMap (fileImports f),
          paths.flatMap (fileCalls f)))
    ∧ accumulateParses f paths = accumulateParses f (paths.filter (fileContributes f))
    ∧ (∀ p msg, f p = .error msg →
        fileSymbols f p = [] ∧ fileImports f p = [] ∧ fileCalls f p = []) := by
  refine ⟨by unfold accumulateParses; rw [foldl_parseStep_eq]; simp, ?_, ?_⟩
  · unfold accumulateParses
    rw [foldl_parseStep_eq, foldl_parseStep_eq]
    rw [flatMap_filter_contributes _ _ _
        (fun x hx => (fileSymbols_eq_nil_of_not_contributing f x hx).1),
      flatMap_filter_contributes _ _ _
        (fun x hx => (fileSymbols_eq_nil_of_not_contributing f x hx).2.1),
      flatMap_filter_contributes _ _ _
        (fun x hx => (fileSymbols_eq_nil_of_not_contributing f x hx).2.2)]
  · intro p msg hf
    exact fileSymbols_eq_nil_of_not_contributing f p (by simp [fileContributes, hf])

/-- C8 witness: with a two-file tree where `bad` fails to parse, the
accumulation equals the accumulation over the good file alone, and `bad`
contributes nothing. -/
theorem c8_per_file_recovery_witness :
    accumulateParses exFetchParse [pyStr "good", pyStr "bad"]
      = accumulateParses exFetchParse
          ([pyStr "good", pyStr "bad"].filter (fileContributes exFetchParse))
    ∧ fileSymbols exFetchParse (pyStr "bad") = [] :=
  ⟨(c8_per_file_recovery exFetchParse [pyStr "good", pyStr "bad"]).2.1,
    ((c8_per_file_recovery exFetchParse [pyStr "good", pyStr "bad"]).2.2
      (pyStr "bad") (pyStr "parse error") (by rfl)).1⟩

/-! ## Claim C9 — `max_symbols` validation -/

/-- C9.  With non-empty `owner` and `repo`, the tool never returns an
error response because of `max_symbols`: a missing value, a value
`int()` cannot convert, or an integer below 1 is silently replaced by
the default 50, and any integer ≥ 1 is used as given. -/
theorem c9_max_symbols_validation :
    (∀ (owner repo : PyStr) (ms : Option PyVal), owner ≠ [] → repo ≠ [] →
      toolMaxSymbols (some owner) (some repo) ms = Except.ok (validateMaxSymbols ms))
    ∧ validateMaxSymbols none = 50
    ∧ (∀ v, pyToInt v = none → validateMaxSymbols (some v) = 50)
    ∧ (∀ v n, pyToInt v = some n → n < 1 → validateMaxSymbols (some v) = 50)
    ∧ (∀ v n, pyToInt v = some n → 1 ≤ n → validateMaxSymbols (some v) = n) := by
  refine ⟨fun owner repo ms howner hrepo => ?_, rfl, fun v hv => ?_, fun v n hv hn => ?_,
    fun v n hv hn => ?_⟩
  · unfold toolMaxSymbols
    rw [if_neg (by simp [howner, hrepo])]
  · unfold validateMaxSymbols
    dsimp only
    rw [hv]
  · unfold validateMaxSymbols
    dsimp only
    rw [hv]
    dsimp only
    rw [if_pos hn]
  · unfold validateMaxSymbols
    dsimp only
    rw [hv]
    dsimp only
    rw [if_neg (not_lt.mpr hn)]

/-- C9 witness: a non-convertible string argument is replaced by 50 and
does not produce an error response; the integer 7 is used as given. -/
theorem c9_max_symbols_validation_witness :
    toolMaxSymbols (some (pyStr "octocat")) (some (pyStr "hello"))
      (some (PyVal.str (pyStr "abc")))
      = Except.ok (validateMaxSymbols (some (PyVal.str (pyStr "abc"))))
    ∧ validateMaxSymbols (some (PyVal.str (pyStr "abc"))) = 50
    ∧ validateMaxSymbols (some (PyVal.int 7)) = 7 :=
  ⟨c9_max_symbols_validation.1 (pyStr "octocat") (pyStr "hello")
      (some (PyVal.str (pyStr "abc"))) (by decide) (by decide),
    c9_max_symbols_validation.2.2.1 (PyVal.str (pyStr "abc")) (by decide),
    c9_max_symbols_validation.2.2.2.2 (PyVal.int 7) 7 rfl (by norm_num)⟩

/-! ## Claim C7 — map assembly ordering -/

theorem groupInsert_sound (acc : List (Option PyStr × List (Symbol × ℚ))) (p : Symbol × ℚ)
    (h : ∀ e ∈ acc, ∀ q ∈ e.2, q.1.file_path = e.1) :
    ∀ e ∈ groupInsert acc p, ∀ q ∈ e.2, q.1.file_path = e.1 := by
  unfold groupInsert
  by_cases hany : acc.any fun e => decide (e.1 = p.1.file_path)
  · rw [if_pos hany]
    intro e he q hq
    rcases List.mem_map.mp he with ⟨e', he', rfl⟩
    by_cases hcond : e'.1 = p.1.file_path
    · rw [if_pos hcond] at hq ⊢
      rcases List.mem_append.mp hq with hq | hq
      · exact h e' he' q hq
      · rw [List.mem_singleton] at hq
        subst hq
        exact hcond.symm
    · rw [if_neg hcond] at hq ⊢
      exact h e' he' q hq
  · rw [if_neg hany]
    intro e he q hq
    rcases List.mem_append.mp he with he | he
    · exact h e he q hq
    · rw [List.mem_singleton] at he
      subst he
      rw [List.mem_singleton] at hq
      subst hq
      rfl

theorem groupByFile_sound (symbols : List Symbol) (scores : List (PyStr × ℚ)) :
    ∀ e ∈ groupByFile symbols scores, ∀ q ∈ e.2, q.1.file_path = e.1 := by
  unfold groupByFile
  exact foldl_preserve_mem groupInsert
    (fun acc => ∀ e ∈ acc, ∀ q ∈ e.2, q.1.file_path = e.1) _
    (fun acc x _ ha => groupInsert_sound acc x ha) [] (by simp)

theorem maxEntryScore_sortWithin (e : Option PyStr × List (Symbol × ℚ)) :
    maxEntryScore (sortWithinFile e) = maxEntryScore e := by
  unfold maxEntryScore sortWithinFile
  exact listMaxQ_eq_of_perm _ _ ((List.perm_insertionSort pairDesc e.2).map _)

/-- C7.  Assembly sorts all symbols (a permutation of the input)
descending by `scores.get(name, 0.0)`, takes the first `max_symbols`,
groups the displayed set by `file_path`, lists files in descending order
of the maximum displayed score and, within each file, symbols in
descending score order; with scores `{f1: 0.9, f2: 0.9, g1: 0.3}`, `f1`
and `f2` in file `X` and `g1` in file `Y`, file `X` is listed before
file `Y`. -/
theorem c7_assembly_ordering :
    (∀ (symbols : List Symbol) (scores : List (PyStr × ℚ)) (k : Nat),
      List.Perm (rankedSymbols symbols scores) symbols
      ∧ (topSymbols symbols scores k).Sorted (symbolDesc scores)
      ∧ (formatMapStruct (topSymbols symbols scores k) scores).Sorted fileDesc
      ∧ (∀ e ∈ formatMapStruct (topSymbols symbols scores k) scores,
          e.2.Sorted pairDesc ∧ ∀ p ∈ e.2, p.1.file_path = e.1))
    ∧ (formatMapStruct (topSymbols
          [mkSymIn "f1" "function" "X", mkSymIn "f2" "function" "X",
            mkSymIn "g1" "function" "Y"] exMapScores 50) exMapScores).map Prod.fst
        = [some (pyStr "X"), some (pyStr "Y")] := by
  constructor
  · intro symbols scores k
    refine ⟨List.perm_insertionSort _ _,
      (List.sorted_insertionSort _ _).sublist (List.take_sublist _ _), ?_, ?_⟩
    · unfold formatMapStruct
      refine List.pairwise_map.mpr ?_
      have hs : (List.insertionSort fileDesc
          (groupByFile (topSymbols symbols scores k) scores)).Sorted fileDesc :=
        List.sorted_insertionSort _ _
      exact hs.imp fun hab => by
        show maxEntryScore (sortWithinFile _) ≤ maxEntryScore (sortWithinFile _)
        rw [maxEntryScore_sortWithin, maxEntryScore_sortWithin]
        exact hab
    · intro e he
      unfold formatMapStruct at he
      rcases List.mem_map.mp he with ⟨e', he', rfl⟩
      have he'' : e' ∈ groupByFile (topSymbols symbols scores k) scores :=
        (List.mem_insertionSort fileDesc).mp he'
      refine ⟨List.sorted_insertionSort _ _, ?_⟩
      intro p hp
      have hp' : p ∈ e'.2 := (List.mem_insertionSort pairDesc).mp hp
      exact groupByFile_sound _ _ e' he'' p hp'
  · have hf1 : getScore exMapScores (mkSymIn "f1" "function" "X").name = 9 / 10 := rfl
    have hf2 : getScore exMapScores (mkSymIn "f2" "function" "X").name = 9 / 10 := rfl
    have hg1 : getScore exMapScores (mkSymIn "g1" "function" "Y").name = 3 / 10 := rfl
    have htop : topSymbols [mkSymIn "f1" "function" "X", mkSymIn "f2" "function" "X",
        mkSymIn "g1" "function" "Y"] exMapScores 50
        = [mkSymIn "f1" "function" "X", mkSymIn "f2" "function" "X",
            mkSymIn "g1" "function" "Y"] := by
      unfold topSymbols rankedSymbols
      simp only [List.insertionSort, List.orderedInsert]
      rw [if_pos (show symbolDesc exMapScores (mkSymIn "f2" "function" "X")
          (mkSymIn "g1" "function" "Y") from by
        show getScore exMapScores (mkSymIn "g1" "function" "Y").name
          ≤ getScore exMapScores (mkSymIn "f2" "function" "X").name
        rw [hg1, hf2]
        norm_num)]
      simp only [List.orderedInsert]
      rw [if_pos (show symbolDesc exMapScores (mkSymIn "f1" "function" "X")
          (mkSymIn "f2" "function" "X") from by
        show getScore exMapScores (mkSymIn "f2" "function" "X").name
          ≤ getScore exMapScores (mkSymIn "f1" "function" "X").name
        rw [hf2, hf1])]
      exact List.take_of_length_le (by norm_num)
    have hgroup : groupByFile [mkSymIn "f1" "function" "X", mkSymIn "f2" "function" "X",
        mkSymIn "g1" "function" "Y"] exMapScores
        = [(some (pyStr "X"),
            [(mkSymIn "f1" "function" "X", 9 / 10), (mkSymIn "f2" "function" "X", 9 / 10)]),
           (some (pyStr "Y"), [(mkSymIn "g1" "function" "Y", 3 / 10)])] := by
      unfold groupByFile
      simp only [List.map_cons, List.map_nil, hf1, hf2, hg1, List.foldl_cons, List.foldl_nil]
      norm_num [groupInsert, mkSymIn, pyStr]
      all_goals decide
    rw [htop]
    unfold formatMapStruct
    rw [hgroup]
    simp only [List.insertionSort, List.orderedInsert]
    rw [if_pos (show fileDesc
        (some (pyStr "X"),
          [(mkSymIn "f1" "function" "X", 9 / 10), (mkSymIn "f2" "function" "X", 9 / 10)])
        (some (pyStr "Y"), [(mkSymIn "g1" "function" "Y", 3 / 10)]) from by
      show (3 : ℚ) / 10 ≤ max ((9 : ℚ) / 10) (9 / 10)
      rw [max_self]
      norm_num)]
    rfl

/-- C7 witness: the universal ordering facts at the three-symbol
example. -/
theorem c7_assembly_ordering_witness :
    List.Perm (rankedSymbols [mkSymIn "f1" "function" "X", mkSymIn "f2" "function" "X",
        mkSymIn "g1" "function" "Y"] exMapScores)
      [mkSymIn "f1" "function" "X", mkSymIn "f2" "function" "X", mkSymIn "g1" "function" "Y"]
    ∧ (topSymbols [mkSymIn "f1" "function" "X", mkSymIn "f2" "function" "X",
        mkSymIn "g1" "function" "Y"] exMapScores 50).Sorted (symbolDesc exMapScores) :=
  ⟨(c7_assembly_ordering.1 [mkSymIn "f1" "function" "X", mkSymIn "f2" "function" "X",
      mkSymIn "g1" "function" "Y"] exMapScores 50).1,
    (c7_assembly_ordering.1 [mkSymIn "f1" "function" "X", mkSymIn "f2" "function" "X",
      mkSymIn "g1" "function" "Y"] exMapScores 50).2.1⟩

end CodeResearch
